import Mathlib

/-!
Verification of the telemetry-aggregation / ELF-analysis core of
`scripts/mccabe_wcet_report.py`.

The Python code is shallowly embedded:
* Python `float` values are modelled by `Fl`: either a finite rational or one
  of the non-finite values (`nan`, `inf`, `neginf`).  All arithmetic the
  claims reason about happens on values that stay finite, so finite
  arithmetic is modelled exactly by `ℚ`.
* Python dicts (all of which are insertion-ordered, some with `defaultdict`
  semantics) are modelled by association lists with first-match lookup,
  in-place value replacement and append-on-miss.
* `deque(maxlen=n)` is modelled by a list together with a capped push.
-/

namespace WcetReport

/-- Model of a Python `float`: a finite rational or a non-finite value. -/
inductive Fl where
  | finite (q : ℚ)
  | nan
  | inf
  | neginf
deriving DecidableEq

/-- `math.isfinite`. -/
def Fl.isFinite : Fl → Bool
  | .finite _ => true
  | _ => false

/-- The finite samples of a list of floats, in order. -/
def finiteVals : List Fl → List ℚ
  | [] => []
  | .finite q :: xs => q :: finiteVals xs
  | _ :: xs => finiteVals xs

/-- First-match lookup in an association list (Python `dict.get`). -/
def lookupA {α β : Type} [DecidableEq α] : List (α × β) → α → Option β
  | [], _ => none
  | (k, v) :: rest, key => if k = key then some v else lookupA rest key

/-- In-place update of an association list entry, mirroring mutation of a
`defaultdict` entry: the first binding of `key` is rewritten through `f`;
when `key` is absent a fresh binding `f default` is appended (Python
creates the default entry on first access and then mutates it). -/
def modifyA {α β : Type} [DecidableEq α] (default : β) (f : β → β) :
    List (α × β) → α → List (α × β)
  | [], key => [(key, f default)]
  | (k, v) :: rest, key =>
      if k = key then (k, f v) :: rest
      else (k, v) :: modifyA default f rest key

/-- `d[key] = value` on a Python dict (last writer wins, order preserved). -/
def setA {α β : Type} [DecidableEq α] : List (α × β) → α → β → List (α × β)
  | [], key, value => [(key, value)]
  | (k, v) :: rest, key, value =>
      if k = key then (k, value) :: rest
      else (k, v) :: setA rest key value

/-! ## RunningStats (`mccabe_wcet_report.py`, class `RunningStats`) -/

/-- `RunningStats`: Welford accumulator for count/min/max/mean/m2. -/
structure RunningStats where
  count : Nat := 0
  mean : ℚ := 0
  m2 : ℚ := 0
  minValue : Option ℚ := none
  maxValue : Option ℚ := none
deriving DecidableEq

/-- `RunningStats.update`: non-finite samples are ignored; finite samples
update count/min/max and the Welford mean/m2 recurrences. -/
def RunningStats.update (s : RunningStats) (value : Fl) : RunningStats :=
  match value with
  | .finite v =>
      let count' := s.count + 1
      let minValue' :=
        match s.minValue with
        | none => some v
        | some m => if v < m then some v else some m
      let maxValue' :=
        match s.maxValue with
        | none => some v
        | some m => if v > m then some v else some m
      let delta := v - s.mean
      let mean' := s.mean + delta / (count' : ℚ)
      let delta2 := v - mean'
      { count := count', mean := mean', m2 := s.m2 + delta * delta2,
        minValue := minValue', maxValue := maxValue' }
  | _ => s

/-- `RunningStats.variance`: Bessel-corrected, defined only for count ≥ 2. -/
def RunningStats.variance (s : RunningStats) : Option ℚ :=
  if s.count < 2 then none else some (s.m2 / ((s.count : ℚ) - 1))

/-- Fold a sample sequence through `RunningStats.update`. -/
def rsUpdateAll (s : RunningStats) (xs : List Fl) : RunningStats :=
  xs.foldl RunningStats.update s

/-! ## TimeSeries (`mccabe_wcet_report.py`, class `TimeSeries`)

The numpy cache fields (`_version`, `_cacheX`, …) only memoise `toArrays`
and never influence the retained points; they are not modelled. -/

/-- `TimeSeries`: bounded, time-relative sample buffer. -/
structure TimeSeries where
  maxLen : Nat
  points : List (ℚ × ℚ) := []
  startTs : Option ℚ := none
deriving DecidableEq

/-- The `while len(points) > maxLen: popleft()` loop of `TimeSeries.append`. -/
def trimFront (maxLen : Nat) (ps : List (ℚ × ℚ)) : List (ℚ × ℚ) :=
  if ps.length > maxLen then trimFront maxLen ps.tail else ps
termination_by ps.length
decreasing_by
  cases ps with
  | nil => simp at *
  | cons a l => simp [Nat.lt_succ_self]

/-- `TimeSeries.append`: skip non-finite inputs, establish the time origin on
first use, store the relative timestamp, evict from the front past capacity. -/
def TimeSeries.append (ts : TimeSeries) (t value : Fl) : TimeSeries :=
  match t, value with
  | .finite tq, .finite vq =>
      let start := ts.startTs.getD tq
      let relTs := tq - start
      { ts with startTs := some start,
                points := trimFront ts.maxLen (ts.points ++ [(relTs, vq)]) }
  | _, _ => ts

/-! ## Numeric string parsing

The telemetry protocol carries decimal literals.  `parseIntPy?` models
`int(s, 10)` and `parseFloatPy?` models `float(s)` on plain decimal
literals (optional sign, digits, optional fraction); any other text maps
to `none`, the `ValueError` branch of the Python code. -/

/-- Value of a digit string. -/
def digitsVal (cs : List Char) : Nat :=
  cs.foldl (fun n c => n * 10 + (c.toNat - 48)) 0

/-- `int(s, 10)` on an optionally signed digit string. -/
def parseIntPy? (s : String) : Option Int :=
  match s.data with
  | [] => none
  | '-' :: rest =>
      if rest.all Char.isDigit && !rest.isEmpty then
        some (-(digitsVal rest : Int))
      else none
  | '+' :: rest =>
      if rest.all Char.isDigit && !rest.isEmpty then
        some (digitsVal rest : Int)
      else none
  | cs =>
      if cs.all Char.isDigit && !cs.isEmpty then
        some (digitsVal cs : Int)
      else none

/-- Unsigned decimal literal `digits[.digits]`, requiring at least one digit. -/
def parseUnsignedRat? (cs : List Char) : Option ℚ :=
  let ip := cs.takeWhile Char.isDigit
  match cs.dropWhile Char.isDigit with
  | [] => if ip.isEmpty then none else some (digitsVal ip : ℚ)
  | '.' :: frac =>
      if frac.all Char.isDigit && (!ip.isEmpty || !frac.isEmpty) then
        some ((digitsVal ip : ℚ) + (digitsVal frac : ℚ) / ((10 : ℚ) ^ frac.length))
      else none
  | _ => none

/-- `float(s)` on decimal literals. -/
def parseFloatPy? (s : String) : Option ℚ :=
  match s.data with
  | '-' :: cs => (parseUnsignedRat? cs).map (fun q => -q)
  | '+' :: cs => parseUnsignedRat? cs
  | cs => parseUnsignedRat? cs

/-! ## Aggregator state (`TraceGlobalState`, `TraceEdgeInfo`, `MetricsStore`) -/

/-- `TraceGlobalState`: the single global running-task pointer, time origins,
time-base tag, and the parked pending switch-out. -/
structure TraceGlobalState where
  currentTask : Option String := none
  currentStartRelSec : Option ℚ := none
  startTargetSec : Option ℚ := none
  startHostSec : Option ℚ := none
  lastRelSec : Option ℚ := none
  timeBase : Option String := none
  pendingSwitchOutTask : Option String := none
  pendingSwitchOutReason : Option Int := none
  pendingSwitchOutWaitTicks : Option Int := none
  pendingSwitchOutRelSec : Option ℚ := none
deriving DecidableEq

/-- `TraceEdgeInfo`: per ordered task pair, transition statistics. -/
structure TraceEdgeInfo where
  count : Nat := 0
  lastReason : Option Int := none
  lastWaitTicks : Option Int := none
  lastRelSec : Option ℚ := none
deriving DecidableEq

/-- `TaskMetrics`: per-task running statistics and plot series. -/
structure TaskMetrics where
  stackTotalStats : RunningStats := {}
  stackFreeStats : RunningStats := {}
  stackUsedStats : RunningStats := {}
  stackUsagePctStats : RunningStats := {}
  cpuPctStats : RunningStats := {}
  stackUsedSeries : TimeSeries := { maxLen := 600 }
  cpuPctSeries : TimeSeries := { maxLen := 600 }
deriving DecidableEq

/-- The parts of `MetricsStore` the scheduling/CPU claims read and write.
`scheduling` maps a task to its `SchedulingState.segments` deque
(`maxlen=2000`), `tasks` and `traceEdges` are `defaultdict`s. -/
structure MetricsStore where
  tasks : List (String × TaskMetrics) := []
  scheduling : List (String × List (ℚ × ℚ)) := []
  trace : TraceGlobalState := {}
  traceEdges : List ((String × String) × TraceEdgeInfo) := []
deriving DecidableEq

/-- `deque(maxlen=cap).append(x)`: evict the oldest entry when full. -/
def capPush (cap : Nat) (l : List (ℚ × ℚ)) (x : ℚ × ℚ) : List (ℚ × ℚ) :=
  if l.length ≥ cap then l.tail ++ [x] else l ++ [x]

/-- `_ = self._store.tasks[task]`: the `defaultdict` access that only ensures
the task entry exists. -/
def touchTask (tasks : List (String × TaskMetrics)) (name : String) :
    List (String × TaskMetrics) :=
  modifyA {} id tasks name

/-! ## `Aggregator.applyTraceKv` -/

/-- Lines 774-786: on seeing a target-clock event while the host clock is the
active time base, wipe the whole scheduling state and the time base. -/
def wipeSchedState (store : MetricsStore) : MetricsStore :=
  { store with
    trace := { store.trace with
      currentTask := none, currentStartRelSec := none,
      startTargetSec := none, startHostSec := none, lastRelSec := none,
      pendingSwitchOutTask := none, pendingSwitchOutReason := none,
      pendingSwitchOutWaitTicks := none, pendingSwitchOutRelSec := none,
      timeBase := none },
    scheduling := [], traceEdges := [] }

/-- Lines 774-789: wipe on host→target time-base conflict, then make the
target clock the active time base. -/
def adjustTimeBaseTarget (store₀ : MetricsStore) : MetricsStore :=
  let store := if store₀.trace.timeBase = some "host" then wipeSchedState store₀ else store₀
  if store.trace.timeBase = none then
    { store with trace := { store.trace with timeBase := some "target" } }
  else store

/-- Lines 791-856 of `applyTraceKv`: timestamp parsing, origin handling and
the switch_in / switch_out state machine. -/
def applyTraceKvCore (store : MetricsStore) (kv : List (String × String))
    (evS taskS tsS : String) : MetricsStore :=
  match parseFloatPy? tsS with
  | none => store
  | some tsv =>
    let ts := tsv / 1000000
    let reasonCode := (lookupA kv "reason").bind (fun s => parseIntPy? s)
    let waitTicks := (lookupA kv "wait_ticks").bind (fun s => parseIntPy? s)
    let startTarget := store.trace.startTargetSec.getD ts
    let store := { store with trace := { store.trace with startTargetSec := some startTarget } }
    let relTs := ts - startTarget
    if relTs < 0 then store
    else
      let store := { store with trace := { store.trace with lastRelSec := some relTs } }
      if evS = "switch_in" then
        let store :=
          match store.trace.pendingSwitchOutTask with
          | some prev =>
              { store with
                traceEdges := modifyA {}
                  (fun e => { count := e.count + 1,
                              lastReason := store.trace.pendingSwitchOutReason,
                              lastWaitTicks := store.trace.pendingSwitchOutWaitTicks,
                              lastRelSec := some relTs })
                  store.traceEdges (prev, taskS),
                trace := { store.trace with
                  pendingSwitchOutTask := none, pendingSwitchOutReason := none,
                  pendingSwitchOutWaitTicks := none, pendingSwitchOutRelSec := none } }
          | none => store
        { store with
          trace := { store.trace with currentTask := some taskS, currentStartRelSec := some relTs },
          tasks := touchTask store.tasks taskS }
      else if evS = "switch_out" then
        if store.trace.currentTask ≠ some taskS then store
        else
          match store.trace.currentStartRelSec with
          | none => store
          | some start =>
            if relTs ≤ start then store
            else
              { store with
                scheduling := modifyA [] (fun segs => capPush 2000 segs (start, relTs))
                  store.scheduling taskS,
                trace := { store.trace with
                  pendingSwitchOutTask := some taskS,
                  pendingSwitchOutReason := reasonCode,
                  pendingSwitchOutWaitTicks := waitTicks,
                  pendingSwitchOutRelSec := some relTs,
                  currentTask := none, currentStartRelSec := none } }
      else store

/-- Body of `applyTraceKv` after the required-key guard: the time-base
preamble followed by the event state machine. -/
def applyTraceKvBody (store : MetricsStore) (kv : List (String × String))
    (evS taskS tsS : String) : MetricsStore :=
  applyTraceKvCore (adjustTimeBaseTarget store) kv evS taskS tsS

/-- `Aggregator.applyTraceKv`: the required-key truthiness guard, then the
time-base handling and the switch_in / switch_out state machine. -/
def applyTraceKv (store : MetricsStore) (kv : List (String × String)) : MetricsStore :=
  match lookupA kv "ev", lookupA kv "task", lookupA kv "ts_us" with
  | some evS, some taskS, some tsS =>
      if evS = "" ∨ taskS = "" ∨ tsS = "" then store
      else applyTraceKvBody store kv evS taskS tsS
  | _, _, _ => store

/-- Lines 877-880 of `applyTraceTextSwitch`: when the outgoing task is the
current one, close its running segment. -/
def closeCurrentSegmentText (store : MetricsStore) (fromTask : String)
    (relTs : ℚ) : MetricsStore :=
  if store.trace.currentTask = some fromTask then
    match store.trace.currentStartRelSec with
    | some start =>
        if relTs > start then
          { store with
            scheduling := modifyA [] (fun segs => capPush 2000 segs (start, relTs))
              store.scheduling fromTask }
        else store
    | none => store
  else store

/-- `Aggregator.applyTraceTextSwitch`: the host-clock textual `A -> B` form.
When the target clock is the active time base the event is dropped at once. -/
def applyTraceTextSwitch (store₀ : MetricsStore) (kv : List (String × String))
    (nowEpoch : ℚ) : MetricsStore :=
  if store₀.trace.timeBase = some "target" then store₀
  else
    let store :=
      if store₀.trace.timeBase = none then
        { store₀ with trace := { store₀.trace with timeBase := some "host" } }
      else store₀
    match lookupA kv "from", lookupA kv "to" with
    | some fromTask, some toTask =>
      if fromTask = "" ∨ toTask = "" then store
      else
        let startHost := store.trace.startHostSec.getD nowEpoch
        let store := { store with trace := { store.trace with startHostSec := some startHost } }
        let relTs := nowEpoch - startHost
        if relTs < 0 then store
        else
          let store := { store with trace := { store.trace with lastRelSec := some relTs } }
          let store := closeCurrentSegmentText store fromTask relTs
          let store :=
            { store with
              traceEdges := modifyA {}
                (fun e => { count := e.count + 1, lastReason := none,
                            lastWaitTicks := none, lastRelSec := some relTs })
                store.traceEdges (fromTask, toTask) }
          { store with
            tasks := touchTask (touchTask store.tasks fromTask) toTask,
            trace := { store.trace with
              currentTask := some toTask, currentStartRelSec := some relTs } }
    | _, _ => store

/-! ## `Aggregator.applyCpuPct` and `Aggregator.updateCpuFromTrace` -/

/-- `Aggregator.applyCpuPct`: drop non-finite percentages, clamp to
`[0, 100]`, then record into the task's stats and series.  The `now`
timestamp is the host clock (`time.time()`), passed explicitly. -/
def applyCpuPct (store : MetricsStore) (task : String) (pct now : Fl) : MetricsStore :=
  match pct with
  | .finite p =>
      let p := if p < 0 then 0 else if p > 100 then 100 else p
      { store with
        tasks := modifyA {}
          (fun tm => { tm with
            cpuPctStats := tm.cpuPctStats.update (.finite p),
            cpuPctSeries := tm.cpuPctSeries.append now (.finite p) })
          store.tasks task }
  | _ => store

/-- The inner loop of `updateCpuFromTrace`: walk the segment deque newest
first, stop at the first segment wholly before the window, clamp the rest to
`[windowStart, now)` and sum the overlaps. -/
def overlapScan (ws now : ℚ) : List (ℚ × ℚ) → ℚ
  | [] => 0
  | (s, e) :: rest =>
      if e ≤ ws then 0
      else
        (let s' := max s ws
         let e' := min e now
         if s' < e' then e' - s' else 0) + overlapScan ws now rest

/-- The total in-window run time the scan attributes to one task. -/
def taskOverlap (store : MetricsStore) (task : String) (ws now : ℚ) : ℚ :=
  overlapScan ws now ((lookupA store.scheduling task).getD []).reverse

/-- The `totals` dict of `updateCpuFromTrace`: per task the scanned overlap,
keeping only tasks with positive overlap. -/
def cpuTotals (sched : List (String × List (ℚ × ℚ))) (ws now : ℚ) :
    List (String × ℚ) :=
  (sched.map (fun p => (p.1, overlapScan ws now p.2.reverse))).filter
    (fun p => 0 < p.2)

/-- The percentages `updateCpuFromTrace` derives from the totals. -/
def cpuPcts (sched : List (String × List (ℚ × ℚ))) (ws now : ℚ) :
    List (String × ℚ) :=
  let totals := cpuTotals sched ws now
  let totalTime := (totals.map (fun p => p.2)).sum
  totals.map (fun p => (p.1, p.2 * 100 / totalTime))

/-- `Aggregator.updateCpuFromTrace`: windowed CPU estimation over the
reconstructed timeline; `hostNow` stands for the `time.time()` reading used
for the plot series. -/
def updateCpuFromTrace (store : MetricsStore) (nowRelSec windowSeconds : ℚ)
    (hostNow : Fl) : MetricsStore :=
  if windowSeconds ≤ 1/10 then store
  else
    let windowStart := nowRelSec - windowSeconds
    let totals := cpuTotals store.scheduling windowStart nowRelSec
    let totalTime := (totals.map (fun p => p.2)).sum
    if totalTime ≤ 0 then store
    else
      totals.foldl
        (fun st p => applyCpuPct st p.1 (.finite (p.2 * 100 / totalTime)) hostNow)
        store

/-! ## FirmwareLineParser (`parseLine`)

The regular expressions of the source are embedded as character-list
functions.  Where a greedy sub-pattern is followed by a character class
disjoint from the repeated class (true for every pattern below), greedy
matching with backtracking coincides with maximal munch, which is what the
definitions implement.  `.` never matches a newline and `$` also accepts a
single trailing newline, as in Python. -/

/-- `[A-Za-z0-9_]` (regex `\w` on ASCII input). -/
def isWordChar (c : Char) : Bool :=
  (97 ≤ c.toNat && c.toNat ≤ 122) || (65 ≤ c.toNat && c.toNat ≤ 90) ||
  (48 ≤ c.toNat && c.toNat ≤ 57) || c.toNat = 95

/-- `[0-9]` (regex `\d`). -/
def isDigitC (c : Char) : Bool :=
  48 ≤ c.toNat && c.toNat ≤ 57

/-- `[A-Z]`. -/
def isUpperAZ (c : Char) : Bool :=
  65 ≤ c.toNat && c.toNat ≤ 90

/-- Python `\s` / `str.strip` whitespace (ASCII). -/
def pyIsSpace (c : Char) : Bool :=
  c.toNat = 32 || c.toNat = 9 || c.toNat = 10 || c.toNat = 13 ||
  c.toNat = 11 || c.toNat = 12

/-- `str.strip()`. -/
def pyStrip (cs : List Char) : List Char :=
  ((cs.dropWhile pyIsSpace).reverse.dropWhile pyIsSpace).reverse

/-- `str.lstrip()`. -/
def pyLstrip (cs : List Char) : List Char :=
  cs.dropWhile pyIsSpace

/-- `[0-9;]`, the body of an ANSI colour code. -/
def isAnsiBodyChar (c : Char) : Bool :=
  isDigitC c || c.toNat = 59

/-- One attempt of `_ANSI_ESCAPE_RE` = `(?:\x1b)?\[[0-9;]*m` at the head;
returns the text after the match. -/
def ansiMatch? (cs : List Char) : Option (List Char) :=
  match cs with
  | c :: rest =>
      if c = Char.ofNat 27 then
        match rest with
        | '[' :: rest2 =>
            (match rest2.dropWhile isAnsiBodyChar with
             | 'm' :: rest3 => some rest3
             | _ => none)
        | _ => none
      else if c = '[' then
        (match rest.dropWhile isAnsiBodyChar with
         | 'm' :: rest3 => some rest3
         | _ => none)
      else none
  | [] => none

/-- `_ANSI_ESCAPE_RE.sub("", line)`: delete every non-overlapping leftmost
colour-code match.  Fuelled with the line length (each step consumes at
least one character). -/
def ansiStripF : Nat → List Char → List Char
  | 0, cs => cs
  | _, [] => []
  | fuel + 1, c :: rest =>
      match ansiMatch? (c :: rest) with
      | some rest' => ansiStripF fuel rest'
      | none => c :: ansiStripF fuel rest

/-- ANSI-code removal at full fuel. -/
def ansiStrip (cs : List Char) : List Char :=
  ansiStripF cs.length cs

/-- `lb = txt.find("["); if lb > 0: txt = txt[lb:]`. -/
def findBracketCut (cs : List Char) : List Char :=
  match cs.findIdx? (fun c => c = '[') with
  | some i => if i > 0 then cs.drop i else cs
  | none => cs

/-- `(?P<rest>.*)$`: `.` does not match `\n`, and `$` also matches just
before a single trailing newline. -/
def restDollar? (cs : List Char) : Option (List Char) :=
  if cs.contains '\n' then
    if cs.dropLast.contains '\n' then none
    else if cs.getLast? = some '\n' then some cs.dropLast else none
  else some cs

/-- `_LOG_LEVEL_PREFIX_RE` = `^\[[A-Z]{3,5}\s*\]\s*(?P<rest>.*)$`.  The
uppercase run must be maximal of length 3 to 5 (a longer run makes every
greedy alternative fail on the following uppercase letter). -/
def logLevelMatch? (cs : List Char) : Option (List Char) :=
  match cs with
  | '[' :: rest =>
      let run := rest.takeWhile isUpperAZ
      if 3 ≤ run.length && run.length ≤ 5 then
        match (rest.dropWhile isUpperAZ).dropWhile pyIsSpace with
        | ']' :: rest3 => restDollar? (rest3.dropWhile pyIsSpace)
        | _ => none
      else none
  | _ => none

/-- `_PREFIX_RE` = `^\[(?P<prefix>[A-Za-z0-9_]+)\]\s*(?P<body>.*)$`. -/
def prefixMatch? (cs : List Char) : Option (List Char × List Char) :=
  match cs with
  | '[' :: rest =>
      let name := rest.takeWhile isWordChar
      if name.isEmpty then none
      else
        match rest.dropWhile isWordChar with
        | ']' :: rest2 =>
            (restDollar? (rest2.dropWhile pyIsSpace)).map (fun body => (name, body))
        | _ => none
  | _ => none

/-- `_PLAIN_PREFIX_RE` = `^(?P<prefix>[A-Za-z0-9_]+)\s*(?P<body>.*)$`. -/
def plainPrefixMatch? (cs : List Char) : Option (List Char × List Char) :=
  let name := cs.takeWhile isWordChar
  if name.isEmpty then none
  else
    (restDollar? ((cs.dropWhile isWordChar).dropWhile pyIsSpace)).map
      (fun body => (name, body))

/-- One attempt of `_KV_RE` = `([a-zA-Z0-9_]+)=([^\s]+)` at the head;
returns the pair and the text after the match. -/
def kvTry? (cs : List Char) : Option ((List Char × List Char) × List Char) :=
  let key := cs.takeWhile isWordChar
  if key.isEmpty then none
  else
    match cs.dropWhile isWordChar with
    | '=' :: rest =>
        let value := rest.takeWhile (fun c => !pyIsSpace c)
        if value.isEmpty then none
        else some ((key, value), rest.dropWhile (fun c => !pyIsSpace c))
    | _ => none

/-- `_KV_RE.finditer`: non-overlapping leftmost matches, scanning left to
right. -/
def kvScanF : Nat → List Char → List (List Char × List Char)
  | 0, _ => []
  | _, [] => []
  | fuel + 1, c :: rest =>
      match kvTry? (c :: rest) with
      | some (p, rest') => p :: kvScanF fuel rest'
      | none => kvScanF fuel rest

/-- Build the kv dict from the scan (insertion order, last key wins). -/
def kvDict (body : List Char) : List (List Char × List Char) :=
  (kvScanF body.length body).foldl (fun d p => setA d p.1 p.2) []

/-- One attempt of `Task:\s*(\w+),\s*WCET:\s*(\d+)\s*us` at the head. -/
def wcetTryAt? (cs : List Char) : Option (List Char × List Char) :=
  match cs with
  | 'T' :: 'a' :: 's' :: 'k' :: ':' :: r1 =>
      let r2 := r1.dropWhile pyIsSpace
      let x := r2.takeWhile isWordChar
      if x.isEmpty then none
      else
        match r2.dropWhile isWordChar with
        | ',' :: r3 =>
            (match r3.dropWhile pyIsSpace with
             | 'W' :: 'C' :: 'E' :: 'T' :: ':' :: r5 =>
                let r6 := r5.dropWhile pyIsSpace
                let y := r6.takeWhile isDigitC
                if y.isEmpty then none
                else
                  (match (r6.dropWhile isDigitC).dropWhile pyIsSpace with
                   | 'u' :: 's' :: _ => some (x, y)
                   | _ => none)
             | _ => none)
        | _ => none
  | _ => none

/-- `re.search` of the legacy WCET sentence: first position at which the
pattern matches. -/
def wcetSearchF : Nat → List Char → Option (List Char × List Char)
  | 0, _ => none
  | _, [] => none
  | fuel + 1, c :: rest =>
      match wcetTryAt? (c :: rest) with
      | some p => some p
      | none => wcetSearchF fuel rest

/-- `\s*->\s*(?P<to>.+)$` (faithful when at least one non-whitespace
character follows the arrow). -/
def arrowRest? (cs : List Char) : Option (List Char) :=
  match cs.dropWhile pyIsSpace with
  | '-' :: '>' :: r =>
      (match restDollar? (r.dropWhile pyIsSpace) with
       | some toPart => if toPart.isEmpty then none else some toPart
       | none => none)
  | _ => none

/-- Lazy `(?P<frm>.+?)` before the arrow: grow the capture one character at
a time (shortest first), never across a newline. -/
def arrowSplitF : Nat → List Char → List Char → Option (List Char × List Char)
  | 0, _, _ => none
  | _, _, [] => none
  | fuel + 1, acc, c :: rest =>
      if c = '\n' then none
      else
        match arrowRest? rest with
        | some toPart => some (acc ++ [c], toPart)
        | none => arrowSplitF fuel (acc ++ [c]) rest

/-- One attempt of `Task\s+switched:\s*(?P<frm>.+?)\s*->\s*(?P<to>.+)$`. -/
def traceTryAt? (cs : List Char) : Option (List Char × List Char) :=
  match cs with
  | 'T' :: 'a' :: 's' :: 'k' :: r0 =>
      if (r0.takeWhile pyIsSpace).isEmpty then none
      else
        match r0.dropWhile pyIsSpace with
        | 's' :: 'w' :: 'i' :: 't' :: 'c' :: 'h' :: 'e' :: 'd' :: ':' :: r1 =>
            let r2 := r1.dropWhile pyIsSpace
            arrowSplitF r2.length [] r2
        | _ => none
  | _ => none

/-- `re.search` of the legacy textual-switch sentence. -/
def traceSearchF : Nat → List Char → Option (List Char × List Char)
  | 0, _ => none
  | _, [] => none
  | fuel + 1, c :: rest =>
      match traceTryAt? (c :: rest) with
      | some p => some p
      | none => traceSearchF fuel rest

/-- `_KNOWN_PREFIXES`. -/
def knownPfxs : List (List Char) :=
  ["MonitorKV".data, "HwKV".data, "WcetKV".data, "TraceKV".data,
   "WCET".data, "TRACE".data]

/-- The tail of `parseLine` once a category and body are fixed: the
key=value scan, then the two legacy free-text fallbacks. -/
def parseWithPfx (pfx body : List Char) :
    Option (List Char) × List (List Char × List Char) :=
  let kv := kvDict body
  let kv :=
    if pfx = "WCET".data ∧ kv = [] then
      match wcetSearchF (pyStrip body).length (pyStrip body) with
      | some (x, y) =>
          [("name".data, "wcet".data), ("task".data, x),
           ("dur_us".data, y), ("isr".data, "0".data)]
      | none => kv
    else kv
  let kv :=
    if pfx.map Char.toUpper = "TRACE".data ∧ kv = [] then
      match traceSearchF (pyStrip body).length (pyStrip body) with
      | some (f, t) => [("from".data, pyStrip f), ("to".data, pyStrip t)]
      | none => kv
    else kv
  (some pfx, kv)

/-- `FirmwareLineParser.parseLine`. -/
def parseLine (line : List Char) :
    Option (List Char) × List (List Char × List Char) :=
  let txt := pyStrip (ansiStrip line)
  let txt := findBracketCut txt
  let txt :=
    match logLevelMatch? txt with
    | some rest => pyLstrip rest
    | none => txt
  let txt := findBracketCut txt
  match prefixMatch? txt with
  | some (pfx, body) => parseWithPfx pfx body
  | none =>
      match plainPrefixMatch? txt with
      | none => (none, [])
      | some (pfx, body) =>
          if pfx ∈ knownPfxs then parseWithPfx pfx body
          else (none, [])

/-- The bare legacy WCET line, `WCET Task: X, WCET: Y us`. -/
def wcetLegacyLine (x y : List Char) : List Char :=
  "WCET Task: ".data ++ x ++ ", WCET: ".data ++ y ++ " us".data

/-- The body the plain-prefix match extracts from the legacy WCET line. -/
def wcetLegacyBody (x y : List Char) : List Char :=
  "Task: ".data ++ x ++ ", WCET: ".data ++ y ++ " us".data

/-! ## Specification-side statistics definitions (claim C4)

These definitions follow the spec's wording (arithmetic mean, sample
minimum/maximum, sum of squared deviations) and are compared against the
Welford accumulator embedded above. -/

/-- Sum of squared deviations of the samples from `c`. -/
def sqDevSum (xs : List ℚ) (c : ℚ) : ℚ :=
  (xs.map (fun x => (x - c) ^ 2)).sum

/-- Minimum of a sample list. -/
def sampleMin : List ℚ → Option ℚ
  | [] => none
  | x :: xs => some (xs.foldl min x)

/-- Maximum of a sample list. -/
def sampleMax : List ℚ → Option ℚ
  | [] => none
  | x :: xs => some (xs.foldl max x)

/-- The closed form the Welford state must equal after the given finite
samples: count, arithmetic mean, `Σx² − (Σx)²/n` for m2, and extrema. -/
def statsOf (fs : List ℚ) : RunningStats :=
  { count := fs.length,
    mean := fs.sum / (fs.length : ℚ),
    m2 := (fs.map (fun x => x ^ 2)).sum - fs.sum ^ 2 / (fs.length : ℚ),
    minValue := sampleMin fs,
    maxValue := sampleMax fs }

/-! ## Specification-side series definitions (claim C8) -/

/-- The last `n` entries of a list. -/
def lastN (n : Nat) (l : List (ℚ × ℚ)) : List (ℚ × ℚ) :=
  l.drop (l.length - n)

/-- Timestamp of the first sample (the series' time origin). -/
def headTs (l : List (ℚ × ℚ)) : ℚ :=
  ((l.head?).map Prod.fst).getD 0

/-- One append of a finite (timestamp, value) sample. -/
def seriesStep (ts : TimeSeries) (p : ℚ × ℚ) : TimeSeries :=
  ts.append (.finite p.1) (.finite p.2)

/-! ## The CPU-percentage range invariant (claim C10) -/

/-- A recorded CPU percentage must lie in `[0, 100]`. -/
def rangeOk (q : ℚ) : Prop := 0 ≤ q ∧ q ≤ 100

/-- All extrema and the mean of a `RunningStats` lie in `[0, 100]`. -/
def statsInRange (s : RunningStats) : Prop :=
  (∀ q ∈ s.minValue, rangeOk q) ∧ (∀ q ∈ s.maxValue, rangeOk q) ∧ rangeOk s.mean

/-- All values stored in a `TimeSeries` lie in `[0, 100]`. -/
def seriesInRange (t : TimeSeries) : Prop :=
  ∀ p ∈ t.points, rangeOk p.2

/-- Every task's CPU-percent statistics and series hold `[0, 100]` data only. -/
def cpuPctInRange (store : MetricsStore) : Prop :=
  ∀ p ∈ store.tasks, statsInRange p.2.cpuPctStats ∧ seriesInRange p.2.cpuPctSeries

/-- Projection read by the zero-overlap-omission part of claim C5: a task's
recorded CPU statistics and series. -/
def taskCpuData (store : MetricsStore) (task : String) :
    Option (RunningStats × TimeSeries) :=
  (lookupA store.tasks task).map (fun tm => (tm.cpuPctStats, tm.cpuPctSeries))

/-! ## Concrete scenario stores -/

/-- Parsed `switch_in(task=A, ts_us=0)`. -/
def traceEv1 : List (String × String) :=
  [("ev", "switch_in"), ("task", "A"), ("ts_us", "0")]

/-- Parsed `switch_out(task=A, ts_us=1000, reason=2, wait_ticks=5)`. -/
def traceEv2 : List (String × String) :=
  [("ev", "switch_out"), ("task", "A"), ("ts_us", "1000"), ("reason", "2"),
   ("wait_ticks", "5")]

/-- Parsed `switch_in(task=B, ts_us=1000)`. -/
def traceEv3 : List (String × String) :=
  [("ev", "switch_in"), ("task", "B"), ("ts_us", "1000")]

/-- The store reached from a fresh `MetricsStore` by the three target-clock
trace events. -/
def demoStore : MetricsStore :=
  applyTraceKv (applyTraceKv (applyTraceKv {} traceEv1) traceEv2) traceEv3

/-- A store whose active time base is the host clock, with recorded
scheduling state. -/
def hostDemoStore : MetricsStore :=
  { trace := { timeBase := some "host" },
    scheduling := [("A", [(0, 1)])],
    traceEdges := [(("A", "B"), { count := 1 })] }


/-! ## ELF static analysis (`_analyzeElfComplete` and helpers)

The in-memory analysis of the objdump text is embedded: the regexes
`funcRe`, `insRe`, `callRe`, `decisionRe` become character-list matchers.
In every greedy sub-pattern the repeated class is disjoint from the class
that must follow (spaces vs hex digits vs `<`, `>` vs `[^>]`), so greedy
matching with backtracking coincides with maximal munch; the only
backtracking that survives is the byte-group iteration of `insRe`, which
`insTailF` replays innermost-first exactly as the regex engine does. -/

/-- `[0-9a-fA-F]`. -/
def isHexDigitC (c : Char) : Bool :=
  isDigitC c || (97 ≤ c.toNat && c.toNat ≤ 102) || (65 ≤ c.toNat && c.toNat ≤ 70)

/-- Value of one hex digit. -/
def hexDigitVal (c : Char) : Nat :=
  if isDigitC c then c.toNat - 48
  else if 97 ≤ c.toNat then c.toNat - 87
  else c.toNat - 55

/-- `int(s, 16)` on a run of hex digits. -/
def hexVal (cs : List Char) : Nat :=
  cs.foldl (fun acc c => acc * 16 + hexDigitVal c) 0

/-- `[a-zA-Z]`. -/
def isAlphaAZ (c : Char) : Bool :=
  (65 ≤ c.toNat && c.toNat ≤ 90) || (97 ≤ c.toNat && c.toNat ≤ 122)

/-- `[a-zA-Z0-9_.]`, the trailing class of the `mn` group of `insRe`. -/
def isMnemChar (c : Char) : Bool :=
  isAlphaAZ c || isDigitC c || c = '_' || c = '.'

/-- `funcRe.match(ln.strip())` for
`funcRe = ^([0-9a-fA-F]+)\s+<([^>]+)>:\s*$`, returning
`(int(group(1), 16), group(2))`. -/
def funcLineMatch? (ln : List Char) : Option (Nat × List Char) :=
  let cs := pyStrip ln
  if (cs.takeWhile isHexDigitC).isEmpty then none
  else
    let r1 := cs.dropWhile isHexDigitC
    if (r1.takeWhile pyIsSpace).isEmpty then none
    else
      match r1.dropWhile pyIsSpace with
      | '<' :: r2 =>
          let nm := r2.takeWhile (fun c => !(c = '>'))
          if nm.isEmpty then none
          else
            match r2.dropWhile (fun c => !(c = '>')) with
            | '>' :: ':' :: r3 =>
                if r3.all pyIsSpace then some (hexVal (cs.takeWhile isHexDigitC), nm)
                else none
            | _ => none
      | _ => none

/-- The `(?:\s+[0-9a-fA-F]+)*\s+(?P<mn>[a-zA-Z][a-zA-Z0-9_.]*)` tail of
`insRe`: first try to read one more whitespace-separated byte group and
recurse (the greedy iteration); on failure fall back to reading the
mnemonic here (the regex engine abandons the innermost iteration first). -/
def insTailF : Nat → List Char → Option (List Char)
  | 0, _ => none
  | fuel + 1, cs =>
      if (cs.takeWhile pyIsSpace).isEmpty then none
      else
        let r := cs.dropWhile pyIsSpace
        let ext :=
          if (r.takeWhile isHexDigitC).isEmpty then none
          else insTailF fuel (r.dropWhile isHexDigitC)
        match ext with
        | some mn => some mn
        | none =>
            match r with
            | c :: _ => if isAlphaAZ c then some (r.takeWhile isMnemChar) else none
            | [] => none

/-- `insRe.match(ln)` for
`insRe = ^\s*([0-9a-fA-F]+):\s+([0-9a-fA-F]+(?:\s+[0-9a-fA-F]+)*)\s+(?P<mn>...)`,
returning `group("mn")`. -/
def insLineMatch? (ln : List Char) : Option (List Char) :=
  let r0 := ln.dropWhile pyIsSpace
  if (r0.takeWhile isHexDigitC).isEmpty then none
  else
    match r0.dropWhile isHexDigitC with
    | ':' :: r1 =>
        if (r1.takeWhile pyIsSpace).isEmpty then none
        else
          let r2 := r1.dropWhile pyIsSpace
          if (r2.takeWhile isHexDigitC).isEmpty then none
          else
            insTailF (r2.dropWhile isHexDigitC).length (r2.dropWhile isHexDigitC)
    | _ => none

/-- One attempt of `callRe = \bbl[x]?\s+([0-9a-fA-F]+)\s+<([^>]+)>` after
`bl[x]?` has been consumed, returning `group(2)`. -/
def callAfterBl (r : List Char) : Option (List Char) :=
  if (r.takeWhile pyIsSpace).isEmpty then none
  else
    let r1 := r.dropWhile pyIsSpace
    if (r1.takeWhile isHexDigitC).isEmpty then none
    else
      let r2 := r1.dropWhile isHexDigitC
      if (r2.takeWhile pyIsSpace).isEmpty then none
      else
        match r2.dropWhile pyIsSpace with
        | '<' :: r3 =>
            let nm := r3.takeWhile (fun c => !(c = '>'))
            if nm.isEmpty then none
            else
              match r3.dropWhile (fun c => !(c = '>')) with
              | '>' :: _ => some nm
              | _ => none
        | _ => none

/-- `callRe` tried at one position; `prev` is the character before the
position, for the `\b` word boundary (`b` is a word character, so the
boundary holds iff the previous character is absent or not a word
character). -/
def callTryAt? (prev : Option Char) (cs : List Char) : Option (List Char) :=
  match cs with
  | 'b' :: 'l' :: r0 =>
      if (match prev with | some p => isWordChar p | none => false) then none
      else
        match r0 with
        | 'x' :: r1 => callAfterBl r1
        | _ => callAfterBl r0
  | _ => none

/-- `callRe.search(ln)`: leftmost match. -/
def callSearchF : Nat → Option Char → List Char → Option (List Char)
  | 0, _, _ => none
  | _, _, [] => none
  | fuel + 1, prev, c :: rest =>
      match callTryAt? prev (c :: rest) with
      | some nm => some nm
      | none => callSearchF fuel (some c) rest

/-- `mnemonic.lower().split(".", 1)[0]`. -/
def normalizeMnemonic (mn : List Char) : List Char :=
  (mn.map Char.toLower).takeWhile (fun c => !(c = '.'))

/-- The alternation of `decisionRe`; `decisionRe.match(m)` with the final
`$` is full-list membership, since a processed mnemonic never contains a
newline. -/
def decisionMnemonics : List (List Char) :=
  (["beq", "bne", "bcs", "bcc", "bhs", "blo", "bmi", "bpl", "bvs", "bvc",
    "bhi", "bls", "bge", "blt", "bgt", "ble",
    "cbz", "cbnz",
    "beqz", "bnez", "bgez", "bltz", "bgtz", "blez",
    "tbb", "tbh",
    "it", "ite", "itt", "ittt", "itttt"]).map String.data

/-- `_ARM_INSTRUCTION_CYCLES`. -/
def armInstructionCycles : List (List Char × Nat) :=
  ([("add", 1), ("adds", 1), ("adc", 1), ("adcs", 1), ("sub", 1), ("subs", 1),
    ("sbc", 1), ("sbcs", 1), ("rsb", 1), ("rsbs", 1), ("mul", 1), ("muls", 1),
    ("and", 1), ("ands", 1), ("orr", 1), ("orrs", 1), ("eor", 1), ("eors", 1),
    ("bic", 1), ("bics", 1), ("mvn", 1), ("mvns", 1), ("neg", 1), ("negs", 1),
    ("mov", 1), ("movs", 1), ("movw", 1), ("movt", 1),
    ("lsl", 1), ("lsls", 1), ("lsr", 1), ("lsrs", 1), ("asr", 1), ("asrs", 1),
    ("ror", 1), ("rors", 1), ("rrx", 1),
    ("cmp", 1), ("cmn", 1), ("tst", 1), ("teq", 1),
    ("ldr", 2), ("ldrb", 2), ("ldrh", 2), ("ldrsb", 2), ("ldrsh", 2),
    ("str", 2), ("strb", 2), ("strh", 2),
    ("ldm", 4), ("stm", 4), ("push", 3), ("pop", 3),
    ("b", 3), ("bl", 4), ("blx", 4), ("bx", 3),
    ("beq", 3), ("bne", 3), ("bcs", 3), ("bcc", 3), ("bhs", 3), ("blo", 3),
    ("bmi", 3), ("bpl", 3), ("bvs", 3), ("bvc", 3), ("bhi", 3), ("bls", 3),
    ("bge", 3), ("blt", 3), ("bgt", 3), ("ble", 3),
    ("cbz", 3), ("cbnz", 3),
    ("sdiv", 8), ("udiv", 8),
    ("nop", 1),
    ("_default", 2)] : List (String × Nat)).map (fun p => (p.1.data, p.2))

/-- The conditional suffixes stripped by `_getInstructionCycles`. -/
def condSuffixes : List (List Char) :=
  (["eq", "ne", "cs", "cc", "hs", "lo", "mi", "pl", "vs", "vc", "hi", "ls",
    "ge", "lt", "gt", "le", "al"]).map String.data

/-- The suffix-stripping loop of `_getInstructionCycles` (first matching
suffix wins, only when the base is strictly longer than the suffix). -/
def stripCondSuffix (b : List Char) : List Char :=
  match condSuffixes.find? (fun suf => suf.isSuffixOf b && suf.length < b.length) with
  | some suf => b.take (b.length - suf.length)
  | none => b

/-- `_getInstructionCycles` (lower/split is idempotent on the processed
mnemonic the scan passes in). -/
def getInstructionCycles (mnemonic : List Char) : Nat :=
  let base := stripCondSuffix (normalizeMnemonic mnemonic)
  match lookupA armInstructionCycles base with
  | some c => c
  | none => (lookupA armInstructionCycles ("_default").data).getD 2

/-- `pat` occurs as a contiguous sublist. -/
def containsSub (pat : List Char) : List Char → Bool
  | [] => pat.isEmpty
  | c :: rest => pat.isPrefixOf (c :: rest) || containsSub pat rest

/-- `_isTaskFunction`: the `_TASK_NAME_PATTERNS` disjunction.  On the
newline-free names produced by `splitlines`, `^.*[Tt]ask.*$` is exactly
containment of `Task` or `task` and the remaining five patterns are
anchored prefix/suffix tests (each subsumed by the first, kept for direct
correspondence with the source list). -/
def isTaskFunction (name : List Char) : Bool :=
  containsSub ("Task").data name || containsSub ("task").data name ||
  ("vTask").data.isPrefixOf name || ("xTask").data.isPrefixOf name ||
  (("prv").data.isPrefixOf name && ("Task").data.isSuffixOf name) ||
  ("_task").data.isSuffixOf name || ("TaskEntry").data.isSuffixOf name

/-- `FunctionInfo` dataclass. -/
structure FunctionInfo where
  name : List Char
  address : Nat := 0
  size : Nat := 0
  instructionCount : Nat := 0
  decisionCount : Nat := 0
  mccabe : Nat := 1
  estimatedCycles : Nat := 0
  estimatedTimeUs : ℚ := 0
  callees : List (List Char) := []
  callers : List (List Char) := []
  stackUsage : Option Nat := none
  isTask : Bool := false
  taskName : Option (List Char) := none

/-- `CallGraphData` dataclass (`functions` dict as insertion-ordered
association list). -/
structure CallGraphData where
  functions : List (List Char × FunctionInfo) := []
  edges : List (List Char × List Char) := []
  maxDepth : Nat := 0
  rootFunctions : List (List Char) := []
  taskFunctions : List (List Char) := []
  mcuClockHz : Nat := 125000000

/-- Mutable state of the scan loop of `_analyzeElfComplete`.  The
`edgesSet` of the source always holds exactly the members of `edges`, so
the `in edgesSet` test is modelled as membership in `edges`. -/
structure ElfScanState where
  functions : List (List Char × FunctionInfo) := []
  edges : List (List Char × List Char) := []
  currentFunc : Option (List Char) := none
  currentAddr : Nat := 0
  funcsSeen : Nat := 0

/-- One iteration of the scan loop; the boolean is the
`funcsSeen > maxFunctions` break. -/
def scanStep (maxFunctions : Nat) (st : ElfScanState) (ln : List Char) :
    ElfScanState × Bool :=
  match funcLineMatch? ln with
  | some (addr, name) =>
      let st1 := { st with currentFunc := some name, currentAddr := addr,
                           funcsSeen := st.funcsSeen + 1 }
      let fi0 : FunctionInfo :=
        { name := name, address := addr, isTask := isTaskFunction name }
      if st1.funcsSeen > maxFunctions then (st1, true)
      else if (lookupA st1.functions name).isSome then (st1, false)
      else ({ st1 with functions := st1.functions ++ [(name, fi0)] }, false)
  | none =>
      match st.currentFunc with
      | none => (st, false)
      | some cf =>
          match insLineMatch? ln with
          | none => (st, false)
          | some mnRaw =>
              if (lookupA st.functions cf).isSome then
                let mnemonic := normalizeMnemonic mnRaw
                let d0 : FunctionInfo := { name := cf }
                let fns1 :=
                  modifyA d0 (fun fi =>
                    { fi with instructionCount := fi.instructionCount + 1,
                              estimatedCycles :=
                                fi.estimatedCycles + getInstructionCycles mnemonic,
                              decisionCount := fi.decisionCount +
                                (if mnemonic ∈ decisionMnemonics then 1 else 0) })
                    st.functions cf
                let st1 := { st with functions := fns1 }
                match callSearchF ln.length none ln with
                | none => (st1, false)
                | some callee =>
                    let fns2 :=
                      modifyA d0 (fun fi =>
                        if callee ∈ fi.callees then fi
                        else { fi with callees := fi.callees ++ [callee] })
                        st1.functions cf
                    let st2 := { st1 with functions := fns2 }
                    if (cf, callee) ∈ st2.edges then (st2, false)
                    else ({ st2 with edges := st2.edges ++ [(cf, callee)] }, false)
              else (st, false)

/-- The scan loop with its `break`. -/
def scanLines (maxFunctions : Nat) : List (List Char) → ElfScanState → ElfScanState
  | [], st => st
  | ln :: rest, st =>
      match scanStep maxFunctions st ln with
      | (st1, true) => st1
      | (st1, false) => scanLines maxFunctions rest st1

/-- The McCabe / estimated-time post-pass:
`mccabe = 1 + decisionCount` and, when `cyclesPerUs > 0`,
`estimatedTimeUs = estimatedCycles / cyclesPerUs`. -/
def finalizeFunctions (mcuClockHz : Nat)
    (functions : List (List Char × FunctionInfo)) :
    List (List Char × FunctionInfo) :=
  functions.map (fun p =>
    let fi := { p.2 with mccabe := 1 + p.2.decisionCount }
    (p.1,
      if (mcuClockHz : ℚ) / 1000000 > 0 then
        { fi with estimatedTimeUs :=
            (fi.estimatedCycles : ℚ) / ((mcuClockHz : ℚ) / 1000000) }
      else fi))

/-- One step of the callers post-pass: for a recorded edge whose callee is
a known function, append the caller to the callee's `callers` unless
already present. -/
def addCallersStep (fns : List (List Char × FunctionInfo))
    (e : List Char × List Char) : List (List Char × FunctionInfo) :=
  match lookupA fns e.2 with
  | none => fns
  | some fi =>
      if e.1 ∈ fi.callers then fns
      else
        modifyA { name := e.2 } (fun g => { g with callers := g.callers ++ [e.1] })
          fns e.2

/-- The callers post-pass: `addCallersStep` folded over the edge list. -/
def addCallers : List (List Char × List Char) →
    List (List Char × FunctionInfo) → List (List Char × FunctionInfo)
  | [], fns => fns
  | e :: rest, fns => addCallers rest (addCallersStep fns e)

/-- Functions without callers, in dict order. -/
def rootFunctionsOf (fns : List (List Char × FunctionInfo)) : List (List Char) :=
  (fns.filter (fun p => p.2.callers.isEmpty)).map Prod.fst

/-- Functions flagged as tasks, in dict order. -/
def taskFunctionsOf (fns : List (List Char × FunctionInfo)) : List (List Char) :=
  (fns.filter (fun p => p.2.isTask)).map Prod.fst

/-- Folding step of the callee loop of `dfs`: `maxChildDepth` update
threading the memo table, `none` meaning the child ran out of fuel. -/
def dfsAcc (g : List Char → List (List Char × Nat) → Option (Nat × List (List Char × Nat)))
    (acc : Option (Nat × List (List Char × Nat))) (c : List Char) :
    Option (Nat × List (List Char × Nat)) :=
  match acc with
  | none => none
  | some (mx, vis) =>
      match g c vis with
      | none => none
      | some (d, vis') => some (max mx d, vis')

/-- Fuelled embedding of the inner `dfs` of `_calculateCallgraphDepth`:
memo lookup first, then the in-recursion-stack guard returning 0, then the
unknown-function guard; otherwise recurse over the callees with `name`
pushed on the stack and memoize `maxChildDepth + 1`. -/
def dfsDepthF : Nat → List (List Char × FunctionInfo) → List Char →
    List (List Char × Nat) → List (List Char) →
    Option (Nat × List (List Char × Nat))
  | 0, _, _, _, _ => none
  | fuel + 1, fns, name, visited, inStack =>
      match lookupA visited name with
      | some d => some (d, visited)
      | none =>
          if name ∈ inStack then some (0, visited)
          else
            match lookupA fns name with
            | none => some (0, visited)
            | some fi =>
                match fi.callees.foldl
                    (dfsAcc (fun c vis => dfsDepthF fuel fns c vis (name :: inStack)))
                    (some (0, visited)) with
                | none => none
                | some (mx, vis) => some (mx + 1, setA vis name (mx + 1))

/-- `_calculateCallgraphDepth`: the dfs from each of the first 500
functions, sharing the memo table, maximising the returned depths.  The
fuel `fns.length + 1` is sufficient (see the C7 theorem), so the `none`
branch is never taken. -/
def calculateCallgraphDepth (fns : List (List Char × FunctionInfo)) : Nat :=
  (((fns.map Prod.fst).take 500).foldl
    (fun acc name =>
      match dfsDepthF (fns.length + 1) fns name acc.2 [] with
      | some (d, vis') => (max acc.1 d, vis')
      | none => acc)
    ((0, []) : Nat × List (List Char × Nat))).1

/-- The in-memory part of `_analyzeElfComplete` on the objdump lines
(after the subprocess plumbing): scan, post-passes, roots/tasks, depth. -/
def analyzeElfLines (lines : List (List Char)) (mcuClockHz : Nat)
    (maxFunctions : Nat) : CallGraphData :=
  let st := scanLines maxFunctions lines {}
  let fns := addCallers st.edges (finalizeFunctions mcuClockHz st.functions)
  { functions := fns,
    edges := st.edges,
    maxDepth := calculateCallgraphDepth fns,
    rootFunctions := rootFunctionsOf fns,
    taskFunctions := taskFunctionsOf fns,
    mcuClockHz := mcuClockHz }

/-- The synthetic disassembly of the specification: one function with
exactly two conditional branches and a repeated `bl` to a named target. -/
def elfDemoLines : List (List Char) :=
  (["00001000 <vMainTask>:",
    "    1000:\t2800      \tcmp\tr0, #0",
    "    1002:\td001      \tbeq.n\t1008 <vMainTask+0x8>",
    "    1004:\td102      \tbne.n\t100c <vMainTask+0xc>",
    "    1006:\tf000 f801 \tbl\t2000 <helper>",
    "    1008:\tf000 f801 \tbl\t2000 <helper>",
    "00002000 <helper>:",
    "    2000:\t4770      \tbx\tlr"]).map String.data

/-- A one-function table whose function calls itself. -/
def selfRecFns : List (List Char × FunctionInfo) :=
  [(("f").data, { name := ("f").data, callees := [("f").data] })]

/-- Invariant carried through the scan loop: recorded edges are distinct
and no `callers` list has been filled yet. -/
def elfScanInv (st : ElfScanState) : Prop :=
  st.edges.Nodup ∧ ∀ p ∈ st.functions, p.2.callers = []

/-- Per-entry invariant established by the post-passes, relative to the
recorded edge list: the McCabe relation and a duplicate-free, sound
`callers` list. -/
def entryOkE (E0 : List (List Char × List Char))
    (p : List Char × FunctionInfo) : Prop :=
  p.2.mccabe = 1 + p.2.decisionCount ∧ p.2.callers.Nodup ∧
  ∀ c ∈ p.2.callers, (c, p.1) ∈ E0

/-- Number of keys of `keys` not in `s`. -/
def countNotIn : List (List Char) → List (List Char) → Nat
  | [], _ => 0
  | k :: rest, s => (if k ∈ s then 0 else 1) + countNotIn rest s

/-- Number of function-table keys not on the recursion stack: the quantity
the fuel of `dfsDepthF` must exceed. -/
def freeKeyCount (fns : List (List Char × FunctionInfo))
    (inStack : List (List Char)) : Nat :=
  countNotIn (fns.map Prod.fst) inStack

end WcetReport

namespace WcetReport

set_option maxRecDepth 100000

/-! # Theorems -/

/-- C1: starting from a fresh `MetricsStore`, applying
`switch_in(task=A, ts_us=0)`, `switch_out(task=A, ts_us=1000, reason=2,
wait_ticks=5)`, `switch_in(task=B, ts_us=1000)` through
`Aggregator.applyTraceKv` yields exactly one closed segment for task A
covering `[0, 1/1000)` seconds (1000 µs), and exactly one transition edge
`(A, B)` with `count = 1`, `lastReason = 2`, `lastWaitTicks = 5`. -/
theorem claim_c1_trace_reconstruction :
    demoStore.scheduling = [("A", [(0, 1/1000)])]
    ∧ demoStore.traceEdges =
        [(("A", "B"),
          { count := 1, lastReason := some 2, lastWaitTicks := some 5,
            lastRelSec := some (1/1000) })] := by
  with_unfolding_all decide

/-- C2 counterexample: after target-clock trace events (`demoStore` has
time base `target` and a recorded segment and edge), one host-clock textual
switch event does NOT clear the recorded segments and edges — it is dropped
and the store is returned unchanged, refuting the claim as stated. -/
theorem claim_c2_counterexample :
    demoStore.trace.timeBase = some "target"
    ∧ demoStore.scheduling ≠ []
    ∧ demoStore.traceEdges ≠ []
    ∧ applyTraceTextSwitch demoStore [("from", "A"), ("to", "B")] 5 = demoStore := by
  with_unfolding_all decide

theorem adjustTimeBaseTarget_host {store : MetricsStore}
    (hb : store.trace.timeBase = some "host") :
    (adjustTimeBaseTarget store).scheduling = []
    ∧ (adjustTimeBaseTarget store).traceEdges = []
    ∧ (adjustTimeBaseTarget store).trace.pendingSwitchOutTask = none
    ∧ (adjustTimeBaseTarget store).trace.currentTask = none := by
  simp [adjustTimeBaseTarget, hb, wipeSchedState]

theorem applyTraceKvCore_clean {store : MetricsStore}
    (kv : List (String × String)) (evS taskS tsS : String)
    (hs : store.scheduling = []) (hedge : store.traceEdges = [])
    (hpend : store.trace.pendingSwitchOutTask = none)
    (hcur : store.trace.currentTask = none) :
    (applyTraceKvCore store kv evS taskS tsS).scheduling = []
    ∧ (applyTraceKvCore store kv evS taskS tsS).traceEdges = [] := by
  unfold applyTraceKvCore
  cases hq : parseFloatPy? tsS with
  | none => exact ⟨hs, hedge⟩
  | some tsv =>
      dsimp only
      split
      · exact ⟨hs, hedge⟩
      · by_cases hin : evS = "switch_in"
        · rw [if_pos hin]
          simp [hpend, hs, hedge]
        · rw [if_neg hin]
          by_cases hout : evS = "switch_out"
          · rw [if_pos hout]
            rw [if_pos (by simp [hcur])]
            exact ⟨hs, hedge⟩
          · rw [if_neg hout]
            exact ⟨hs, hedge⟩

/-- C2 amended: when the target clock is the active time base, a host-clock
textual switch event is ignored entirely (the store is returned unchanged);
the wipe happens in the opposite direction only — a target-clock trace
event arriving while the host clock is the active time base clears all
recorded scheduling segments and all transition edges. -/
theorem claim_c2_amended :
    (∀ (store : MetricsStore) (kv : List (String × String)) (now : ℚ),
      store.trace.timeBase = some "target" →
      applyTraceTextSwitch store kv now = store)
    ∧ (∀ (store : MetricsStore) (kv : List (String × String)) (evS taskS tsS : String),
      store.trace.timeBase = some "host" →
      lookupA kv "ev" = some evS → evS ≠ "" →
      lookupA kv "task" = some taskS → taskS ≠ "" →
      lookupA kv "ts_us" = some tsS → tsS ≠ "" →
      (applyTraceKv store kv).scheduling = [] ∧ (applyTraceKv store kv).traceEdges = []) := by
  constructor
  · intro store kv now h
    simp [applyTraceTextSwitch, h]
  · intro store kv evS taskS tsS hb he hne ht htne hts htsne
    unfold applyTraceKv
    simp only [he, ht, hts]
    rw [if_neg (by simp [hne, htne, htsne])]
    unfold applyTraceKvBody
    obtain ⟨h1, h2, h3, h4⟩ := adjustTimeBaseTarget_host hb
    exact applyTraceKvCore_clean kv evS taskS tsS h1 h2 h3 h4

/-- C2 amended, witness: the target-base drop at `demoStore` and the
host-base wipe at `hostDemoStore` with the concrete `switch_in` event. -/
theorem claim_c2_amended_witness :
    applyTraceTextSwitch demoStore [("from", "A"), ("to", "B")] 5 = demoStore
    ∧ ((applyTraceKv hostDemoStore traceEv1).scheduling = []
       ∧ (applyTraceKv hostDemoStore traceEv1).traceEdges = []) :=
  ⟨claim_c2_amended.1 demoStore [("from", "A"), ("to", "B")] 5
      (by with_unfolding_all decide),
   claim_c2_amended.2 hostDemoStore traceEv1 "switch_in" "A" "0"
      (by decide) (by decide) (by decide) (by decide) (by decide)
      (by decide) (by decide)⟩

/-! ## Association-list and deque helper lemmas -/

theorem trimFront_eq_drop (cap : Nat) (l : List (ℚ × ℚ)) :
    trimFront cap l = l.drop (l.length - cap) := by
  induction l with
  | nil => rw [trimFront]; simp
  | cons a t ih =>
      rw [trimFront]
      split
      · next h =>
          have hc : cap ≤ t.length := by
            simp only [List.length_cons, gt_iff_lt] at h
            omega
          rw [List.tail_cons, ih]
          simp [Nat.succ_sub hc]
      · next h =>
          have h0 : t.length + 1 - cap = 0 := by
            simp only [List.length_cons, gt_iff_lt] at h
            omega
          simp [List.length_cons, h0]

theorem mem_of_mem_trimFront {cap : Nat} {l : List (ℚ × ℚ)} {p : ℚ × ℚ}
    (h : p ∈ trimFront cap l) : p ∈ l := by
  rw [trimFront_eq_drop] at h
  exact List.drop_subset _ l h

theorem modifyA_forall {α β : Type} [DecidableEq α] (P : β → Prop) (d : β)
    (f : β → β) (l : List (α × β)) (k : α) (hd : P (f d))
    (hf : ∀ v, P v → P (f v)) :
    (∀ p ∈ l, P p.2) → ∀ p ∈ modifyA d f l k, P p.2 := by
  induction l with
  | nil =>
      intro _ p hp
      simp [modifyA] at hp
      simp [hp, hd]
  | cons a t ih =>
      intro hl p hp
      obtain ⟨ka, va⟩ := a
      by_cases hk : ka = k
      · simp [modifyA, hk] at hp
        rcases hp with hp | hp
        · have := hl (k, va) (by simp [← hk])
          simp [hp]
          exact hf va this
        · exact hl p (by simp [hp])
      · simp [modifyA, hk] at hp
        rcases hp with hp | hp
        · exact hl p (by simp [hp])
        · exact ih (fun q hq => hl q (by simp [hq])) p hp

theorem lookupA_modifyA_ne {α β : Type} [DecidableEq α] (d : β) (f : β → β)
    (l : List (α × β)) (k k' : α) (h : k' ≠ k) :
    lookupA (modifyA d f l k) k' = lookupA l k' := by
  have hk' : k ≠ k' := fun he => h he.symm
  induction l with
  | nil => simp [modifyA, lookupA, hk']
  | cons a t ih =>
      obtain ⟨ka, va⟩ := a
      by_cases hk : ka = k
      · subst hk
        simp [modifyA, lookupA, hk']
      · simp [modifyA, hk, lookupA, ih]

theorem lookupA_eq_of_nodup {α β : Type} [DecidableEq α] {l : List (α × β)}
    {k : α} {v : β} (hnd : (l.map Prod.fst).Nodup) (h : (k, v) ∈ l) :
    lookupA l k = some v := by
  induction l with
  | nil => simp at h
  | cons a t ih =>
      obtain ⟨ka, va⟩ := a
      rw [List.map_cons, List.nodup_cons] at hnd
      rcases List.mem_cons.mp h with h1 | h1
      · obtain ⟨rfl, rfl⟩ := Prod.mk.inj h1
        simp [lookupA]
      · have hka : ka ≠ k := by
          intro he
          subst he
          exact hnd.1 (List.mem_map.mpr ⟨(ka, v), h1, rfl⟩)
        simp [lookupA, hka, ih hnd.2 h1]

/-! ## Range-invariant preservation lemmas -/

theorem convex_step {m v n1 : ℚ} (h1 : 1 ≤ n1) (hm : 0 ≤ m ∧ m ≤ 100)
    (hv : 0 ≤ v ∧ v ≤ 100) :
    0 ≤ m + (v - m) / n1 ∧ m + (v - m) / n1 ≤ 100 := by
  have hn0 : (0 : ℚ) < n1 := lt_of_lt_of_le one_pos h1
  rcases le_or_lt m v with hle | hlt
  · have h0 : 0 ≤ (v - m) / n1 := div_nonneg (by linarith) hn0.le
    have h2 : (v - m) / n1 ≤ v - m := div_le_self (by linarith) h1
    exact ⟨by linarith, by linarith⟩
  · have hnn : 0 ≤ m - v := by linarith
    have h2 : (m - v) / n1 ≤ m - v := div_le_self hnn h1
    have h4 : 0 ≤ (m - v) / n1 := div_nonneg hnn hn0.le
    have h3 : (v - m) / n1 = -((m - v) / n1) := by
      rw [← neg_sub, neg_div]
    rw [h3]
    exact ⟨by linarith, by linarith⟩

theorem statsInRange_update {s : RunningStats} {v : ℚ} (hs : statsInRange s)
    (hv : rangeOk v) : statsInRange (s.update (.finite v)) := by
  obtain ⟨hmin, hmax, hmean⟩ := hs
  have h1 : (1 : ℚ) ≤ ((s.count + 1 : ℕ) : ℚ) := by
    push_cast
    have : (0 : ℚ) ≤ (s.count : ℚ) := Nat.cast_nonneg _
    linarith
  refine ⟨?_, ?_, ?_⟩
  · intro q hq
    simp only [RunningStats.update] at hq
    cases hmv : s.minValue with
    | none => simp [hmv] at hq; simp [← hq, hv]
    | some m =>
        simp [hmv] at hq
        split at hq <;> simp_all [rangeOk]
  · intro q hq
    simp only [RunningStats.update] at hq
    cases hmv : s.maxValue with
    | none => simp [hmv] at hq; simp [← hq, hv]
    | some m =>
        simp [hmv] at hq
        split at hq <;> simp_all [rangeOk]
  · simpa [RunningStats.update, rangeOk] using
      convex_step h1 hmean hv

theorem seriesInRange_append {ts : TimeSeries} {tm : Fl} {q : ℚ}
    (hs : seriesInRange ts) (hq : rangeOk q) :
    seriesInRange (ts.append tm (.finite q)) := by
  cases tm with
  | finite tq =>
      intro p hp
      simp only [TimeSeries.append] at hp
      have hmem := mem_of_mem_trimFront hp
      rcases List.mem_append.mp hmem with h | h
      · exact hs p h
      · simp at h
        simp [h]
        exact hq
  | nan => exact hs
  | inf => exact hs
  | neginf => exact hs

theorem taskEntryOk_default :
    statsInRange ({} : TaskMetrics).cpuPctStats
      ∧ seriesInRange ({} : TaskMetrics).cpuPctSeries := by
  refine ⟨⟨?_, ?_, ?_⟩, ?_⟩ <;> simp [statsInRange, seriesInRange, rangeOk]

theorem cpuPctInRange_applyCpuPct {store : MetricsStore} {task : String}
    {pct now : Fl} (h : cpuPctInRange store) :
    cpuPctInRange (applyCpuPct store task pct now) := by
  cases pct with
  | finite p =>
      have hclamp : rangeOk (if p < 0 then 0 else if p > 100 then (100 : ℚ) else p) := by
        split_ifs <;> constructor <;> linarith
      have h' : ∀ p ∈ store.tasks,
          statsInRange p.2.cpuPctStats ∧ seriesInRange p.2.cpuPctSeries := h
      intro q hq
      simp only [applyCpuPct] at hq
      refine modifyA_forall
        (fun tm => statsInRange tm.cpuPctStats ∧ seriesInRange tm.cpuPctSeries)
        {} _ store.tasks task ?_ ?_ h' q hq
      · exact ⟨statsInRange_update taskEntryOk_default.1 hclamp,
               seriesInRange_append taskEntryOk_default.2 hclamp⟩
      · intro v hv
        exact ⟨statsInRange_update hv.1 hclamp, seriesInRange_append hv.2 hclamp⟩
  | nan => exact h
  | inf => exact h
  | neginf => exact h

theorem foldl_preserve {σ τ : Type} (P : σ → Prop) (f : σ → τ → σ)
    (hf : ∀ s x, P s → P (f s x)) :
    ∀ (l : List τ) (s : σ), P s → P (l.foldl f s) := by
  intro l
  induction l with
  | nil => intro s hs; exact hs
  | cons x t ih => intro s hs; exact ih (f s x) (hf s x hs)

theorem cpuPctInRange_updateCpu {store : MetricsStore} {a b : ℚ} {c : Fl}
    (h : cpuPctInRange store) : cpuPctInRange (updateCpuFromTrace store a b c) := by
  unfold updateCpuFromTrace
  split
  · exact h
  · dsimp only
    split
    · exact h
    · exact foldl_preserve cpuPctInRange _
        (fun s x hs => cpuPctInRange_applyCpuPct hs) _ store h

theorem cpuPctInRange_touchTask {tasks : List (String × TaskMetrics)} {n : String}
    (h : ∀ p ∈ tasks, statsInRange p.2.cpuPctStats ∧ seriesInRange p.2.cpuPctSeries) :
    ∀ p ∈ touchTask tasks n,
      statsInRange p.2.cpuPctStats ∧ seriesInRange p.2.cpuPctSeries := by
  unfold touchTask
  exact modifyA_forall
    (fun tm => statsInRange tm.cpuPctStats ∧ seriesInRange tm.cpuPctSeries)
    {} id tasks n taskEntryOk_default (fun _ hv => hv) h

theorem adjustTimeBaseTarget_tasks (store : MetricsStore) :
    (adjustTimeBaseTarget store).tasks = store.tasks := by
  unfold adjustTimeBaseTarget
  dsimp only
  split <;> split <;> simp [wipeSchedState]

theorem applyTraceKvCore_tasks (store : MetricsStore)
    (kv : List (String × String)) (evS taskS tsS : String) :
    (applyTraceKvCore store kv evS taskS tsS).tasks = store.tasks
      ∨ (applyTraceKvCore store kv evS taskS tsS).tasks = touchTask store.tasks taskS := by
  unfold applyTraceKvCore
  cases hp : parseFloatPy? tsS with
  | none => left; rfl
  | some tsv =>
      dsimp only
      split
      · left; rfl
      · by_cases hin : evS = "switch_in"
        · rw [if_pos hin]
          right
          cases hps : store.trace.pendingSwitchOutTask <;> rfl
        · rw [if_neg hin]
          by_cases hout : evS = "switch_out"
          · rw [if_pos hout]
            left
            split
            · rfl
            · cases hcs : store.trace.currentStartRelSec with
              | none => rfl
              | some start =>
                  dsimp only
                  split <;> rfl
          · rw [if_neg hout]
            left
            rfl

theorem applyTraceKv_tasks (store : MetricsStore) (kv : List (String × String)) :
    (applyTraceKv store kv).tasks = store.tasks
      ∨ ∃ n, (applyTraceKv store kv).tasks = touchTask store.tasks n := by
  unfold applyTraceKv
  cases hev : lookupA kv "ev" with
  | none => left; rfl
  | some evS =>
  cases htask : lookupA kv "task" with
  | none => left; rfl
  | some taskS =>
  cases hts : lookupA kv "ts_us" with
  | none => left; rfl
  | some tsS =>
  dsimp only
  split
  · left; rfl
  · unfold applyTraceKvBody
    rcases applyTraceKvCore_tasks (adjustTimeBaseTarget store) kv evS taskS tsS
      with hh | hh
    · rw [hh, adjustTimeBaseTarget_tasks]
      left; rfl
    · rw [hh, adjustTimeBaseTarget_tasks]
      right; exact ⟨taskS, rfl⟩

theorem closeCurrentSegmentText_tasks (store : MetricsStore) (f : String)
    (r : ℚ) : (closeCurrentSegmentText store f r).tasks = store.tasks := by
  unfold closeCurrentSegmentText
  split
  · split
    · split <;> rfl
    · rfl
  · rfl

theorem applyTraceTextSwitch_tasks (store : MetricsStore)
    (kv : List (String × String)) (now : ℚ) :
    (applyTraceTextSwitch store kv now).tasks = store.tasks
      ∨ ∃ a b, (applyTraceTextSwitch store kv now).tasks =
          touchTask (touchTask store.tasks a) b := by
  unfold applyTraceTextSwitch
  split
  · left; rfl
  · cases hf : lookupA kv "from" with
    | none => left; dsimp only; split <;> rfl
    | some fromTask =>
    cases ht2 : lookupA kv "to" with
    | none => left; dsimp only; split <;> rfl
    | some toTask =>
    dsimp only
    split
    · left; split <;> rfl
    · split <;> split <;>
        first
          | (left; rfl)
          | (right
             refine ⟨fromTask, toTask, ?_⟩
             simp only [closeCurrentSegmentText_tasks])

/-! ## CPU-percentage summation lemmas (claim C5) -/

theorem mem_cpuTotals {sched : List (String × List (ℚ × ℚ))} {ws now : ℚ}
    {n : String} {v : ℚ} (h : (n, v) ∈ cpuTotals sched ws now) :
    0 < v ∧ ∃ segs, (n, segs) ∈ sched ∧ v = overlapScan ws now segs.reverse := by
  unfold cpuTotals at h
  obtain ⟨hmem, hpos⟩ := List.mem_filter.mp h
  obtain ⟨p, hp, he⟩ := List.mem_map.mp hmem
  obtain ⟨he1, he2⟩ := Prod.mk.inj he
  refine ⟨by simpa using hpos, p.2, ?_, he2.symm⟩
  have : p = (n, p.2) := by
    rw [← he1]
  rw [← this]
  exact hp

theorem taskOverlap_of_mem {store : MetricsStore} {n : String}
    {segs : List (ℚ × ℚ)} {ws now : ℚ}
    (hnd : (store.scheduling.map Prod.fst).Nodup)
    (h : (n, segs) ∈ store.scheduling) :
    taskOverlap store n ws now = overlapScan ws now segs.reverse := by
  unfold taskOverlap
  rw [lookupA_eq_of_nodup hnd h]
  rfl

theorem taskCpuData_applyCpuPct_ne {store : MetricsStore} {n task : String}
    {pct now : Fl} (h : n ≠ task) :
    taskCpuData (applyCpuPct store n pct now) task = taskCpuData store task := by
  cases pct with
  | finite p =>
      unfold taskCpuData applyCpuPct
      rw [lookupA_modifyA_ne _ _ _ _ _ (fun he => h he.symm)]
  | nan => rfl
  | inf => rfl
  | neginf => rfl

theorem taskCpuData_foldl_ne {task : String} {hostNow : Fl}
    (l : List (String × ℚ)) (store : MetricsStore)
    (hnot : task ∉ l.map Prod.fst) :
    taskCpuData
      (l.foldl (fun st p => applyCpuPct st p.1 (.finite p.2) hostNow) store) task
      = taskCpuData store task := by
  induction l generalizing store with
  | nil => rfl
  | cons a t ih =>
      have h1 : task ∉ t.map Prod.fst := fun hh => hnot (by simp [hh])
      have h2 : a.1 ≠ task := fun hh => hnot (by simp [hh])
      rw [List.foldl_cons, ih _ h1, taskCpuData_applyCpuPct_ne h2]

/-- C5: for every store whose scheduling table is a well-formed dict
(distinct task keys) and every window longer than 0.1 s, whenever some task
has positive scanned overlap, the per-task percentages recorded by
`Aggregator.updateCpuFromTrace` sum to exactly 100, they are recorded for
exactly the tasks the scan gives positive overlap, and a task whose scanned
overlap is zero keeps its CPU statistics untouched. -/
theorem claim_c5_cpu_percent_sum (store : MetricsStore) (now win : ℚ)
    (hostNow : Fl) (hwin : 1/10 < win)
    (hnd : (store.scheduling.map Prod.fst).Nodup)
    (hpos : 0 < ((cpuTotals store.scheduling (now - win) now).map
      (fun p => p.2)).sum) :
    ((cpuPcts store.scheduling (now - win) now).map (fun p => p.2)).sum = 100
    ∧ updateCpuFromTrace store now win hostNow =
        (cpuPcts store.scheduling (now - win) now).foldl
          (fun st p => applyCpuPct st p.1 (.finite p.2) hostNow) store
    ∧ (∀ p ∈ cpuPcts store.scheduling (now - win) now,
        0 < taskOverlap store p.1 (now - win) now)
    ∧ (∀ task, taskOverlap store task (now - win) now = 0 →
        taskCpuData (updateCpuFromTrace store now win hostNow) task =
          taskCpuData store task) := by
  have hT : ((cpuTotals store.scheduling (now - win) now).map
      (fun p => p.2)).sum ≠ 0 := ne_of_gt hpos
  have hmemPos : ∀ p ∈ cpuTotals store.scheduling (now - win) now,
      0 < taskOverlap store p.1 (now - win) now := by
    intro p hp
    obtain ⟨hv, segs, hmem, hval⟩ := mem_cpuTotals (n := p.1) (v := p.2)
      (by simpa using hp)
    rw [taskOverlap_of_mem hnd hmem, ← hval]
    exact hv
  have hB : updateCpuFromTrace store now win hostNow =
      (cpuPcts store.scheduling (now - win) now).foldl
        (fun st p => applyCpuPct st p.1 (.finite p.2) hostNow) store := by
    unfold updateCpuFromTrace cpuPcts
    rw [if_neg (not_le.mpr hwin)]
    dsimp only
    rw [if_neg (not_le.mpr hpos), List.foldl_map]
  refine ⟨?_, hB, ?_, ?_⟩
  · unfold cpuPcts
    dsimp only
    rw [List.map_map]
    have heq : ((fun p => p.2) ∘ fun p =>
        (p.1, p.2 * 100 / ((cpuTotals store.scheduling (now - win) now).map
          (fun p => p.2)).sum)) =
        (fun p : String × ℚ => p.2 *
          (100 / ((cpuTotals store.scheduling (now - win) now).map
            (fun p => p.2)).sum)) := by
      funext p
      simp [mul_div_assoc]
    rw [heq, List.sum_map_mul_right]
    field_simp
  · intro p hp
    unfold cpuPcts at hp
    dsimp only at hp
    obtain ⟨q, hq, he⟩ := List.mem_map.mp hp
    have := hmemPos q hq
    rw [← he]
    exact this
  · intro task h0
    rw [hB]
    refine taskCpuData_foldl_ne _ store ?_
    intro hmemk
    obtain ⟨p, hp, he⟩ := List.mem_map.mp hmemk
    unfold cpuPcts at hp
    dsimp only at hp
    obtain ⟨q, hq, he2⟩ := List.mem_map.mp hp
    have hposq := hmemPos q hq
    have : q.1 = task := by
      rw [← he, ← he2]
    rw [this] at hposq
    rw [h0] at hposq
    exact lt_irrefl 0 hposq

/-- C5 witness: the demo store after the three trace events, a 5-second
window ending at `1/1000`, where task A's single segment gives the only
(hence 100 %) share. -/
theorem claim_c5_cpu_percent_sum_witness :
    ((cpuPcts demoStore.scheduling (1/1000 - 5) (1/1000)).map
      (fun p => p.2)).sum = 100
    ∧ updateCpuFromTrace demoStore (1/1000) 5 (.finite 0) =
        (cpuPcts demoStore.scheduling (1/1000 - 5) (1/1000)).foldl
          (fun st p => applyCpuPct st p.1 (.finite p.2) (.finite 0)) demoStore
    ∧ (∀ p ∈ cpuPcts demoStore.scheduling (1/1000 - 5) (1/1000),
        0 < taskOverlap demoStore p.1 (1/1000 - 5) (1/1000))
    ∧ (∀ task, taskOverlap demoStore task (1/1000 - 5) (1/1000) = 0 →
        taskCpuData (updateCpuFromTrace demoStore (1/1000) 5 (.finite 0)) task =
          taskCpuData demoStore task) :=
  claim_c5_cpu_percent_sum demoStore (1/1000) 5 (.finite 0)
    (by norm_num) (by with_unfolding_all decide) (by with_unfolding_all decide)

/-- C10: every CPU-percent value recorded into a task's `cpuPctStats` and
`cpuPctSeries` lies in `[0, 100]`: `applyCpuPct` clamps finite inputs into
`[0, 100]` and ignores non-finite inputs, and every modelled store
operation that can touch CPU-percent data (`applyCpuPct`,
`updateCpuFromTrace`, `applyTraceKv`, `applyTraceTextSwitch`) preserves the
range invariant `cpuPctInRange`. -/
theorem claim_c10_cpu_pct_range :
    (∀ (store : MetricsStore) (task : String) (pct now : Fl),
      cpuPctInRange store → cpuPctInRange (applyCpuPct store task pct now))
    ∧ (∀ (store : MetricsStore) (task : String) (pct now : Fl),
      pct.isFinite = false → applyCpuPct store task pct now = store)
    ∧ (∀ (store : MetricsStore) (a b : ℚ) (c : Fl),
      cpuPctInRange store → cpuPctInRange (updateCpuFromTrace store a b c))
    ∧ (∀ (store : MetricsStore) (kv : List (String × String)),
      cpuPctInRange store → cpuPctInRange (applyTraceKv store kv))
    ∧ (∀ (store : MetricsStore) (kv : List (String × String)) (now : ℚ),
      cpuPctInRange store → cpuPctInRange (applyTraceTextSwitch store kv now)) := by
  refine ⟨fun _ _ _ _ h => cpuPctInRange_applyCpuPct h,
          fun store task pct now hf => ?_,
          fun _ _ _ _ h => cpuPctInRange_updateCpu h,
          fun store kv h => ?_, fun store kv now h => ?_⟩
  · cases pct with
    | finite p => simp [Fl.isFinite] at hf
    | nan => rfl
    | inf => rfl
    | neginf => rfl
  · rcases applyTraceKv_tasks store kv with heq | ⟨n, heq⟩
    · intro p hp; exact h p (heq ▸ hp)
    · intro p hp
      exact cpuPctInRange_touchTask h p (heq ▸ hp)
  · rcases applyTraceTextSwitch_tasks store kv now with heq | ⟨a, b, heq⟩
    · intro p hp; exact h p (heq ▸ hp)
    · intro p hp
      exact cpuPctInRange_touchTask (cpuPctInRange_touchTask h) p (heq ▸ hp)

/-- C10 witness: the clamp at work on the empty store — an input of 250
is recorded as 100, and a NaN input changes nothing. -/
theorem claim_c10_cpu_pct_range_witness :
    cpuPctInRange (applyCpuPct {} "A" (.finite 250) (.finite 0))
    ∧ applyCpuPct {} "A" .nan (.finite 0) = ({} : MetricsStore) :=
  ⟨claim_c10_cpu_pct_range.1 {} "A" (.finite 250) (.finite 0)
      (by intro p hp; simp at hp),
   claim_c10_cpu_pct_range.2.1 {} "A" .nan (.finite 0) rfl⟩

/-! ## Welford-accumulator lemmas (claim C4) -/

theorem sampleMin_append (fs : List ℚ) (v : ℚ) :
    sampleMin (fs ++ [v]) = some (match sampleMin fs with
      | none => v
      | some m => min m v) := by
  cases fs with
  | nil => rfl
  | cons x t => simp [sampleMin, List.foldl_append]

theorem sampleMax_append (fs : List ℚ) (v : ℚ) :
    sampleMax (fs ++ [v]) = some (match sampleMax fs with
      | none => v
      | some m => max m v) := by
  cases fs with
  | nil => rfl
  | cons x t => simp [sampleMax, List.foldl_append]

theorem statsOf_nil : statsOf [] = ({} : RunningStats) := by
  simp [statsOf, sampleMin, sampleMax]

theorem update_statsOf (fs : List ℚ) (v : ℚ) :
    (statsOf fs).update (.finite v) = statsOf (fs ++ [v]) := by
  unfold statsOf RunningStats.update
  dsimp only
  simp only [RunningStats.mk.injEq]
  by_cases hnil : fs = []
  · subst hnil
    refine ⟨by simp, by norm_num, by norm_num, ?_, ?_⟩
    · simp [sampleMin]
    · simp [sampleMax]
  · have hlen : 1 ≤ fs.length := by
      cases fs with
      | nil => exact absurd rfl hnil
      | cons a t => simp
    have hne : ((fs.length : ℚ)) ≠ 0 := by
      have hq : (0 : ℚ) < (fs.length : ℚ) := by exact_mod_cast hlen
      exact ne_of_gt hq
    have hne1 : ((fs.length : ℚ) + 1) ≠ 0 := by
      have hq : (0 : ℚ) < (fs.length : ℚ) + 1 := by positivity
      exact ne_of_gt hq
    refine ⟨by simp, ?_, ?_, ?_, ?_⟩
    · push_cast
      field_simp
      ring
    · push_cast
      field_simp
      ring
    · rw [sampleMin_append]
      cases hm : sampleMin fs with
      | none =>
          exfalso
          cases fs with
          | nil => exact hnil rfl
          | cons a t => simp [sampleMin] at hm
      | some m =>
          dsimp only
          split
          · next hlt => rw [min_eq_right (le_of_lt hlt)]
          · next hge => rw [min_eq_left (le_of_not_lt hge)]
    · rw [sampleMax_append]
      cases hm : sampleMax fs with
      | none =>
          exfalso
          cases fs with
          | nil => exact hnil rfl
          | cons a t => simp [sampleMax] at hm
      | some m =>
          dsimp only
          split
          · next hlt => rw [max_eq_right (le_of_lt hlt)]
          · next hge => rw [max_eq_left (le_of_not_lt hge)]

theorem update_nonfinite (s : RunningStats) (v : Fl)
    (h : v.isFinite = false) : s.update v = s := by
  cases v with
  | finite q => simp [Fl.isFinite] at h
  | nan => rfl
  | inf => rfl
  | neginf => rfl

theorem rsUpdateAll_statsOf (xs : List Fl) (fs : List ℚ) :
    rsUpdateAll (statsOf fs) xs = statsOf (fs ++ finiteVals xs) := by
  induction xs generalizing fs with
  | nil => simp [rsUpdateAll, finiteVals]
  | cons x t ih =>
      cases x with
      | finite v =>
          have hstep : rsUpdateAll (statsOf fs) (.finite v :: t)
              = rsUpdateAll ((statsOf fs).update (.finite v)) t := rfl
          rw [hstep, update_statsOf, ih]
          simp [finiteVals]
      | nan =>
          have hstep : rsUpdateAll (statsOf fs) (.nan :: t)
              = rsUpdateAll (statsOf fs) t := rfl
          rw [hstep, ih]
          simp [finiteVals]
      | inf =>
          have hstep : rsUpdateAll (statsOf fs) (.inf :: t)
              = rsUpdateAll (statsOf fs) t := rfl
          rw [hstep, ih]
          simp [finiteVals]
      | neginf =>
          have hstep : rsUpdateAll (statsOf fs) (.neginf :: t)
              = rsUpdateAll (statsOf fs) t := rfl
          rw [hstep, ih]
          simp [finiteVals]

theorem rsUpdateAll_eq_statsOf (xs : List Fl) :
    rsUpdateAll {} xs = statsOf (finiteVals xs) := by
  have h := rsUpdateAll_statsOf xs []
  rw [statsOf_nil] at h
  simpa using h

theorem sqDevSum_expand (fs : List ℚ) (c : ℚ) :
    sqDevSum fs c = (fs.map (fun x => x ^ 2)).sum - 2 * c * fs.sum
      + (fs.length : ℚ) * c ^ 2 := by
  induction fs with
  | nil => simp [sqDevSum]
  | cons x t ih =>
      simp only [sqDevSum, List.map_cons, List.sum_cons, List.length_cons] at *
      rw [ih]
      push_cast
      ring

theorem sqDevSum_mean (fs : List ℚ) (h : fs ≠ []) :
    sqDevSum fs (fs.sum / (fs.length : ℚ)) =
      (fs.map (fun x => x ^ 2)).sum - fs.sum ^ 2 / (fs.length : ℚ) := by
  have hpos : 0 < fs.length := List.length_pos.mpr h
  have hlen : ((fs.length : ℚ)) ≠ 0 := by
    have hq : (0 : ℚ) < (fs.length : ℚ) := by exact_mod_cast hpos
    exact ne_of_gt hq
  rw [sqDevSum_expand]
  field_simp
  ring

/-- C4: folding any sample sequence through `RunningStats.update` leaves
count, mean, min, max and Bessel-corrected variance equal to the exact
statistics of the finite samples of the sequence, and a non-finite sample
leaves the accumulator entirely unchanged. -/
theorem claim_c4_running_stats (xs : List Fl) :
    (rsUpdateAll {} xs).count = (finiteVals xs).length
    ∧ (rsUpdateAll {} xs).mean
        = (finiteVals xs).sum / ((finiteVals xs).length : ℚ)
    ∧ (rsUpdateAll {} xs).minValue = sampleMin (finiteVals xs)
    ∧ (rsUpdateAll {} xs).maxValue = sampleMax (finiteVals xs)
    ∧ (rsUpdateAll {} xs).variance =
        (if 2 ≤ (finiteVals xs).length then
          some (sqDevSum (finiteVals xs)
              ((finiteVals xs).sum / ((finiteVals xs).length : ℚ)) /
            (((finiteVals xs).length : ℚ) - 1))
        else none)
    ∧ (∀ (s : RunningStats) (v : Fl), v.isFinite = false → s.update v = s) := by
  rw [rsUpdateAll_eq_statsOf]
  refine ⟨rfl, rfl, rfl, rfl, ?_, update_nonfinite⟩
  unfold RunningStats.variance statsOf
  dsimp only
  by_cases h2 : 2 ≤ (finiteVals xs).length
  · rw [if_neg (by omega), if_pos h2]
    have hne : finiteVals xs ≠ [] := by
      intro hh
      rw [hh] at h2
      simp at h2
    rw [sqDevSum_mean _ hne]
  · rw [if_pos (by omega), if_neg h2]

/-- C4 witness: the statistics after `[1, NaN, 3]` count only the two
finite samples, and a NaN update is the identity. -/
theorem claim_c4_running_stats_witness :
    (rsUpdateAll {} [Fl.finite 1, Fl.nan, Fl.finite 3]).count
        = (finiteVals [Fl.finite 1, Fl.nan, Fl.finite 3]).length
    ∧ RunningStats.update {} Fl.nan = {} :=
  ⟨(claim_c4_running_stats [Fl.finite 1, Fl.nan, Fl.finite 3]).1,
   (claim_c4_running_stats [Fl.finite 1, Fl.nan, Fl.finite 3]).2.2.2.2.2
     {} Fl.nan rfl⟩

/-! ## Bounded time-series lemmas (claim C8) -/

theorem lastN_length_le (n : Nat) (l : List (ℚ × ℚ)) : (lastN n l).length ≤ n := by
  unfold lastN
  rw [List.length_drop]
  omega

theorem lastN_of_le {n : Nat} {l : List (ℚ × ℚ)} (h : l.length ≤ n) :
    lastN n l = l := by
  unfold lastN
  rw [Nat.sub_eq_zero_of_le h, List.drop_zero]

theorem lastN_append_left (n : Nat) (l m : List (ℚ × ℚ)) :
    lastN n (lastN n l ++ m) = lastN n (l ++ m) := by
  unfold lastN
  rw [List.drop_append_eq_append_drop, List.drop_drop,
      List.drop_append_eq_append_drop]
  have h1 : l.length - n + ((l.drop (l.length - n) ++ m).length - n)
      = (l ++ m).length - n := by
    simp only [List.length_append, List.length_drop]
    omega
  have h2 : (l.drop (l.length - n) ++ m).length - n
        - (l.drop (l.length - n)).length
      = (l ++ m).length - n - l.length := by
    simp only [List.length_append, List.length_drop]
    omega
  rw [h1, h2]

theorem series_fold_points (N : Nat) (samples : List (ℚ × ℚ))
    (ps₀ : List (ℚ × ℚ)) (t0 : ℚ) (hps : ps₀.length ≤ N) :
    samples.foldl seriesStep ⟨N, ps₀, some t0⟩ =
      ⟨N, lastN N (ps₀ ++ samples.map (fun p => (p.1 - t0, p.2))), some t0⟩ := by
  induction samples generalizing ps₀ with
  | nil => simp [lastN_of_le hps]
  | cons x rest ih =>
      obtain ⟨t, v⟩ := x
      have hstep : seriesStep ⟨N, ps₀, some t0⟩ (t, v)
          = ⟨N, lastN N (ps₀ ++ [(t - t0, v)]), some t0⟩ := by
        simp [seriesStep, TimeSeries.append, trimFront_eq_drop, lastN]
      rw [List.foldl_cons, hstep, ih _ (lastN_length_le _ _)]
      rw [lastN_append_left]
      simp

theorem series_fold_spec (N : Nat) (t0 v0 : ℚ) (rest : List (ℚ × ℚ)) :
    ((t0, v0) :: rest).foldl seriesStep ⟨N, [], none⟩ =
      ⟨N, lastN N (((t0, v0) :: rest).map (fun p => (p.1 - t0, p.2))), some t0⟩ := by
  have hstep : seriesStep ⟨N, [], none⟩ (t0, v0)
      = ⟨N, lastN N [(t0 - t0, v0)], some t0⟩ := by
    simp [seriesStep, TimeSeries.append, trimFront_eq_drop, lastN]
  rw [List.foldl_cons, hstep, series_fold_points _ _ _ _ (lastN_length_le _ _)]
  rw [lastN_append_left]
  simp

/-- C8: appending more than `N` finite samples to a fresh capacity-`N`
`TimeSeries` retains exactly the last `N` samples in insertion order, with
timestamps relative to the first sample's timestamp, the length is exactly
`N`, it never exceeds `N` after any prefix of the appends, and the time
origin is the first observed timestamp. -/
theorem claim_c8_bounded_series (N : Nat) (samples : List (ℚ × ℚ))
    (hM : N < samples.length) :
    (samples.foldl seriesStep ⟨N, [], none⟩).points.length = N
    ∧ (∀ k, ((samples.take k).foldl seriesStep
        ⟨N, [], none⟩).points.length ≤ N)
    ∧ (samples.foldl seriesStep ⟨N, [], none⟩).points =
      (samples.map (fun p => (p.1 - headTs samples, p.2))).drop
        (samples.length - N)
    ∧ (samples.foldl seriesStep ⟨N, [], none⟩).startTs
        = some (headTs samples) := by
  cases samples with
  | nil => simp at hM
  | cons x rest =>
      obtain ⟨t0, v0⟩ := x
      have hspec := series_fold_spec N t0 v0 rest
      have hhead : headTs ((t0, v0) :: rest) = t0 := rfl
      refine ⟨?_, ?_, ?_, ?_⟩
      · rw [hspec]
        show (lastN N (((t0, v0) :: rest).map
          (fun p => (p.1 - t0, p.2)))).length = N
        unfold lastN
        rw [List.length_drop]
        simp only [List.length_map, List.length_cons] at hM ⊢
        omega
      · intro k
        cases k with
        | zero =>
            show ([] : List (ℚ × ℚ)).length ≤ N
            simp
        | succ k =>
            rw [List.take_succ_cons, series_fold_spec]
            exact lastN_length_le _ _
      · rw [hspec, hhead]
        show lastN N (((t0, v0) :: rest).map (fun p => (p.1 - t0, p.2)))
            = (((t0, v0) :: rest).map (fun p => (p.1 - t0, p.2))).drop
              (((t0, v0) :: rest).length - N)
        unfold lastN
        rw [List.length_map]
      · rw [hspec, hhead]

/-- C8 witness: capacity 2, three samples — the series keeps the last two,
relative to the first timestamp. -/
theorem claim_c8_bounded_series_witness :
    ([((10 : ℚ), (1 : ℚ)), (11, 2), (12, 3)].foldl seriesStep
        ⟨2, [], none⟩).points.length = 2
    ∧ (∀ k, (([((10 : ℚ), (1 : ℚ)), (11, 2), (12, 3)].take k).foldl seriesStep
        ⟨2, [], none⟩).points.length ≤ 2)
    ∧ ([((10 : ℚ), (1 : ℚ)), (11, 2), (12, 3)].foldl seriesStep
        ⟨2, [], none⟩).points =
      ([((10 : ℚ), (1 : ℚ)), (11, 2), (12, 3)].map
        (fun p => (p.1 - headTs [((10 : ℚ), (1 : ℚ)), (11, 2), (12, 3)], p.2))).drop
        ([((10 : ℚ), (1 : ℚ)), (11, 2), (12, 3)].length - 2)
    ∧ ([((10 : ℚ), (1 : ℚ)), (11, 2), (12, 3)].foldl seriesStep
        ⟨2, [], none⟩).startTs =
      some (headTs [((10 : ℚ), (1 : ℚ)), (11, 2), (12, 3)]) :=
  claim_c8_bounded_series 2 [(10, 1), (11, 2), (12, 3)] (by norm_num)

/-! ## Character-class and scanning lemmas (claim C3) -/

theorem wordChar_not_space {c : Char} (h : isWordChar c = true) :
    pyIsSpace c = false := by
  simp only [isWordChar, Bool.or_eq_true, Bool.and_eq_true,
    decide_eq_true_eq] at h
  simp only [pyIsSpace, Bool.or_eq_false_iff, decide_eq_false_iff_not]
  omega

theorem wordChar_ne {c d : Char} (h : isWordChar c = true)
    (hd : isWordChar d = false) : c ≠ d := by
  intro he
  subst he
  rw [h] at hd
  exact Bool.noConfusion hd

theorem digitC_isWord {c : Char} (h : isDigitC c = true) :
    isWordChar c = true := by
  simp only [isDigitC, Bool.and_eq_true, decide_eq_true_eq] at h
  simp only [isWordChar, Bool.or_eq_true, Bool.and_eq_true, decide_eq_true_eq]
  omega

theorem takeWhile_append_run {p : Char → Bool} (xs : List Char) {c : Char}
    (rest : List Char) (hx : ∀ a ∈ xs, p a = true) (hc : p c = false) :
    (xs ++ c :: rest).takeWhile p = xs := by
  induction xs with
  | nil => simp [List.takeWhile_cons, hc]
  | cons a t ih =>
      have ha : p a = true := hx a (by simp)
      simp only [List.cons_append, List.takeWhile_cons, ha, if_true]
      rw [ih (fun b hb => hx b (by simp [hb]))]

theorem dropWhile_append_run {p : Char → Bool} (xs : List Char) {c : Char}
    (rest : List Char) (hx : ∀ a ∈ xs, p a = true) (hc : p c = false) :
    (xs ++ c :: rest).dropWhile p = c :: rest := by
  induction xs with
  | nil => simp [List.dropWhile_cons, hc]
  | cons a t ih =>
      have ha : p a = true := hx a (by simp)
      simp only [List.cons_append, List.dropWhile_cons, ha, if_true]
      exact ih (fun b hb => hx b (by simp [hb]))

theorem dropWhile_cons_neg {p : Char → Bool} {c : Char} (rest : List Char)
    (hc : p c = false) : (c :: rest).dropWhile p = c :: rest := by
  simp [List.dropWhile_cons, hc]

theorem contains_false {l : List Char} {c : Char} (h : ∀ a ∈ l, a ≠ c) :
    l.contains c = false := by
  induction l with
  | nil => rfl
  | cons a t ih =>
      have ha : (c == a) = false :=
        beq_eq_false_iff_ne.mpr (fun he => (h a (by simp)) he.symm)
      simp only [List.contains_cons, ha, Bool.false_or]
      exact ih (fun b hb => h b (by simp [hb]))

theorem restDollar?_clean {cs : List Char} (h : ∀ a ∈ cs, a ≠ '\n') :
    restDollar? cs = some cs := by
  unfold restDollar?
  rw [contains_false h]
  rfl

theorem ansiMatch?_none {cs : List Char}
    (h : ∀ a ∈ cs, a ≠ '[' ∧ a ≠ Char.ofNat 27) : ansiMatch? cs = none := by
  cases cs with
  | nil => rfl
  | cons c rest =>
      obtain ⟨h1, h2⟩ := h c (by simp)
      simp [ansiMatch?, h1, h2]

theorem ansiStripF_id (fuel : Nat) (cs : List Char)
    (h : ∀ a ∈ cs, a ≠ '[' ∧ a ≠ Char.ofNat 27) : ansiStripF fuel cs = cs := by
  induction fuel generalizing cs with
  | zero => simp [ansiStripF]
  | succ n ih =>
      cases cs with
      | nil => rfl
      | cons c rest =>
          simp only [ansiStripF, ansiMatch?_none h]
          rw [ih rest (fun a ha => h a (by simp [ha]))]

theorem ansiStrip_id {cs : List Char}
    (h : ∀ a ∈ cs, a ≠ '[' ∧ a ≠ Char.ofNat 27) : ansiStrip cs = cs :=
  ansiStripF_id cs.length cs h

theorem findBracketCut_id {cs : List Char} (h : ∀ a ∈ cs, a ≠ '[') :
    findBracketCut cs = cs := by
  unfold findBracketCut
  have hnone : cs.findIdx? (fun c => c = '[') = none := by
    induction cs with
    | nil => rfl
    | cons a t ih =>
        have ha : (decide (a = '[')) = false := by
          simp [h a (by simp)]
        have ht := ih (fun b hb => h b (by simp [hb]))
        simp [List.findIdx?_cons, ha, ht]
  rw [hnone]

theorem pyStrip_cons_concat (a : Char) (mid : List Char) (z : Char)
    (ha : pyIsSpace a = false) (hz : pyIsSpace z = false) :
    pyStrip (a :: (mid ++ [z])) = a :: (mid ++ [z]) := by
  unfold pyStrip
  rw [dropWhile_cons_neg _ ha]
  rw [show (a :: (mid ++ [z])).reverse = z :: (mid.reverse ++ [a]) by simp]
  rw [dropWhile_cons_neg _ hz]
  simp

theorem logLevelMatch?_not_bracket {c : Char} (h : c ≠ '[')
    (rest : List Char) : logLevelMatch? (c :: rest) = none := by
  unfold logLevelMatch?
  split
  · next heq =>
      injection heq with h1 h2
      exact absurd h1 h
  · rfl

theorem prefixMatch?_not_bracket {c : Char} (h : c ≠ '[')
    (rest : List Char) : prefixMatch? (c :: rest) = none := by
  unfold prefixMatch?
  split
  · next heq =>
      injection heq with h1 h2
      exact absurd h1 h
  · rfl

theorem kvTry?_none {cs : List Char} (h : ∀ a ∈ cs, a ≠ '=') :
    kvTry? cs = none := by
  unfold kvTry?
  dsimp only
  split
  · rfl
  · split
    · next heq =>
        exfalso
        have hmem : '=' ∈ cs := by
          have hsub := List.dropWhile_sublist (l := cs) (p := isWordChar)
          have hin : '=' ∈ cs.dropWhile isWordChar := by
            rw [heq]
            simp
          exact hsub.subset hin
        exact h _ hmem rfl
    · rfl

theorem kvScanF_nil (fuel : Nat) {cs : List Char} (h : ∀ a ∈ cs, a ≠ '=') :
    kvScanF fuel cs = [] := by
  induction fuel generalizing cs with
  | zero => simp [kvScanF]
  | succ n ih =>
      cases cs with
      | nil => rfl
      | cons c rest =>
          simp only [kvScanF, kvTry?_none h]
          exact ih (fun a ha => h a (by simp [ha]))

theorem kvDict_nil {body : List Char} (h : ∀ a ∈ body, a ≠ '=') :
    kvDict body = [] := by
  unfold kvDict
  rw [kvScanF_nil _ h]
  rfl

theorem ne_of_class {p : Char → Bool} {c d : Char} (h : p c = true)
    (hd : p d = false) : c ≠ d := by
  intro he
  subst he
  rw [h] at hd
  exact Bool.noConfusion hd

theorem takeWhile_run_cons {p : Char → Bool} (x0 : Char) (xs : List Char)
    {c : Char} (rest : List Char) (hx0 : p x0 = true)
    (hx : ∀ a ∈ xs, p a = true) (hc : p c = false) :
    (x0 :: (xs ++ c :: rest)).takeWhile p = x0 :: xs := by
  rw [← List.cons_append]
  refine takeWhile_append_run _ _ ?_ hc
  intro a ha
  rcases List.mem_cons.mp ha with rfl | ha
  · exact hx0
  · exact hx a ha

theorem dropWhile_run_cons {p : Char → Bool} (x0 : Char) (xs : List Char)
    {c : Char} (rest : List Char) (hx0 : p x0 = true)
    (hx : ∀ a ∈ xs, p a = true) (hc : p c = false) :
    (x0 :: (xs ++ c :: rest)).dropWhile p = c :: rest := by
  rw [← List.cons_append]
  refine dropWhile_append_run _ _ ?_ hc
  intro a ha
  rcases List.mem_cons.mp ha with rfl | ha
  · exact hx0
  · exact hx a ha

theorem dropSpace_cons {rest : List Char} {c : Char} (hc : pyIsSpace c = false) :
    (' ' :: c :: rest).dropWhile pyIsSpace = c :: rest := by
  rw [List.dropWhile_cons, if_pos (by decide)]
  exact dropWhile_cons_neg _ hc

theorem wcetLegacyLine_decomp (x y : List Char) :
    wcetLegacyLine x y = ['W', 'C', 'E', 'T'] ++ (' ' :: wcetLegacyBody x y) := by
  have e1 : "WCET Task: ".data
      = ['W', 'C', 'E', 'T', ' ', 'T', 'a', 's', 'k', ':', ' '] := rfl
  have e2 : "Task: ".data = ['T', 'a', 's', 'k', ':', ' '] := rfl
  simp [wcetLegacyLine, wcetLegacyBody, e1, e2]

theorem wcetLegacyBody_decomp (x y : List Char) :
    wcetLegacyBody x y = 'T' :: 'a' :: 's' :: 'k' :: ':' ::
      (' ' :: (x ++ (',' :: (' ' :: ('W' :: 'C' :: 'E' :: 'T' :: ':' ::
        (' ' :: (y ++ (' ' :: 'u' :: 's' :: []))))))))  := by
  have e2 : "Task: ".data = ['T', 'a', 's', 'k', ':', ' '] := rfl
  have e3 : ", WCET: ".data = [',', ' ', 'W', 'C', 'E', 'T', ':', ' '] := rfl
  have e4 : " us".data = [' ', 'u', 's'] := rfl
  simp [wcetLegacyBody, e2, e3, e4]

/-- C3 amended: the bare `WCET Task: X, WCET: Y us` shape parses to
category `WCET` with the synthetic map
`{name: wcet, task: X, dur_us: Y, isr: 0}`, the key=value scan having
yielded nothing.  (The bracketed `[WCET] ...` shape does not — see the
counterexample — because the log-level heuristic consumes `[WCET]`.) -/
theorem claim_c3_wcet_legacy (X Y : List Char) (hX : X ≠ [])
    (hXw : ∀ c ∈ X, isWordChar c = true) (hY : Y ≠ [])
    (hYd : ∀ c ∈ Y, isDigitC c = true) :
    parseLine (wcetLegacyLine X Y)
      = (some "WCET".data,
         [("name".data, "wcet".data), ("task".data, X),
          ("dur_us".data, Y), ("isr".data, "0".data)]) := by
  obtain ⟨x0, X', rfl⟩ := List.exists_cons_of_ne_nil hX
  obtain ⟨y0, Y', rfl⟩ := List.exists_cons_of_ne_nil hY
  have hx0w : isWordChar x0 = true := hXw x0 (by simp)
  have hX'w : ∀ a ∈ X', isWordChar a = true := fun a ha => hXw a (by simp [ha])
  have hy0d : isDigitC y0 = true := hYd y0 (by simp)
  have hY'd : ∀ a ∈ Y', isDigitC a = true := fun a ha => hYd a (by simp [ha])
  -- every character of the body, then of the line, is a word character,
  -- a space, a colon or a comma
  have hBodyClass : ∀ c ∈ wcetLegacyBody (x0 :: X') (y0 :: Y'),
      isWordChar c = true ∨ c = ' ' ∨ c = ':' ∨ c = ',' := by
    intro c hc
    unfold wcetLegacyBody at hc
    simp only [List.append_assoc, List.mem_append] at hc
    have hA : ∀ c ∈ "Task: ".data,
        isWordChar c = true ∨ c = ' ' ∨ c = ':' ∨ c = ',' := by decide
    have hB : ∀ c ∈ ", WCET: ".data,
        isWordChar c = true ∨ c = ' ' ∨ c = ':' ∨ c = ',' := by decide
    have hC : ∀ c ∈ " us".data,
        isWordChar c = true ∨ c = ' ' ∨ c = ':' ∨ c = ',' := by decide
    rcases hc with hc | hc | hc | hc | hc
    · exact hA c hc
    · exact Or.inl (hXw c hc)
    · exact hB c hc
    · exact Or.inl (digitC_isWord (hYd c hc))
    · exact hC c hc
  have hLineClass : ∀ c ∈ wcetLegacyLine (x0 :: X') (y0 :: Y'),
      isWordChar c = true ∨ c = ' ' ∨ c = ':' ∨ c = ',' := by
    intro c hc
    rw [wcetLegacyLine_decomp] at hc
    have hW : ∀ a ∈ (['W', 'C', 'E', 'T'] : List Char), isWordChar a = true := by
      decide
    rcases List.mem_append.mp hc with hc | hc
    · exact Or.inl (hW c hc)
    · rcases List.mem_cons.mp hc with rfl | hc
      · exact Or.inr (Or.inl rfl)
      · exact hBodyClass c hc
  have hNoBr : ∀ c ∈ wcetLegacyLine (x0 :: X') (y0 :: Y'),
      c ≠ '[' ∧ c ≠ Char.ofNat 27 := by
    intro c hc
    rcases hLineClass c hc with h | h | h | h
    · exact ⟨ne_of_class h (by decide), ne_of_class h (by decide)⟩
    · subst h; exact ⟨by decide, by decide⟩
    · subst h; exact ⟨by decide, by decide⟩
    · subst h; exact ⟨by decide, by decide⟩
  have hBodyNoNl : ∀ c ∈ wcetLegacyBody (x0 :: X') (y0 :: Y'), c ≠ '\n' := by
    intro c hc
    rcases hBodyClass c hc with h | h | h | h
    · exact ne_of_class h (by decide)
    · subst h; decide
    · subst h; decide
    · subst h; decide
  have hBodyNoEq : ∀ c ∈ wcetLegacyBody (x0 :: X') (y0 :: Y'), c ≠ '=' := by
    intro c hc
    rcases hBodyClass c hc with h | h | h | h
    · exact ne_of_class h (by decide)
    · subst h; decide
    · subst h; decide
    · subst h; decide
  -- reshapes exposing the first and last characters
  have hshLine : wcetLegacyLine (x0 :: X') (y0 :: Y')
      = 'W' :: ((['C', 'E', 'T', ' ', 'T', 'a', 's', 'k', ':', ' '] ++
          (x0 :: X' ++ [','] ++ [' ', 'W', 'C', 'E', 'T', ':', ' '] ++
            (y0 :: Y') ++ [' ', 'u'])) ++ ['s']) := by
    have e1 : "WCET Task: ".data
        = ['W', 'C', 'E', 'T', ' ', 'T', 'a', 's', 'k', ':', ' '] := rfl
    have e3 : ", WCET: ".data = [',', ' ', 'W', 'C', 'E', 'T', ':', ' '] := rfl
    have e4 : " us".data = [' ', 'u', 's'] := rfl
    simp [wcetLegacyLine, e1, e3, e4]
  have hshBody : wcetLegacyBody (x0 :: X') (y0 :: Y')
      = 'T' :: ((['a', 's', 'k', ':', ' '] ++
          (x0 :: X' ++ [','] ++ [' ', 'W', 'C', 'E', 'T', ':', ' '] ++
            (y0 :: Y') ++ [' ', 'u'])) ++ ['s']) := by
    have e2 : "Task: ".data = ['T', 'a', 's', 'k', ':', ' '] := rfl
    have e3 : ", WCET: ".data = [',', ' ', 'W', 'C', 'E', 'T', ':', ' '] := rfl
    have e4 : " us".data = [' ', 'u', 's'] := rfl
    simp [wcetLegacyBody, e2, e3, e4]
  -- the normalisation pipeline leaves the bare line unchanged
  have hAnsi : ansiStrip (wcetLegacyLine (x0 :: X') (y0 :: Y'))
      = wcetLegacyLine (x0 :: X') (y0 :: Y') := ansiStrip_id hNoBr
  have hStrip : pyStrip (wcetLegacyLine (x0 :: X') (y0 :: Y'))
      = wcetLegacyLine (x0 :: X') (y0 :: Y') := by
    conv_lhs => rw [hshLine]
    rw [pyStrip_cons_concat _ _ _ (by decide) (by decide)]
    rw [← hshLine]
  have hCut : findBracketCut (wcetLegacyLine (x0 :: X') (y0 :: Y'))
      = wcetLegacyLine (x0 :: X') (y0 :: Y') :=
    findBracketCut_id (fun c hc => (hNoBr c hc).1)
  have hLog : logLevelMatch? (wcetLegacyLine (x0 :: X') (y0 :: Y')) = none := by
    rw [wcetLegacyLine_decomp]
    exact logLevelMatch?_not_bracket (by decide) _
  have hPre : prefixMatch? (wcetLegacyLine (x0 :: X') (y0 :: Y')) = none := by
    rw [wcetLegacyLine_decomp]
    exact prefixMatch?_not_bracket (by decide) _
  have hdws : (' ' :: wcetLegacyBody (x0 :: X') (y0 :: Y')).dropWhile pyIsSpace
      = wcetLegacyBody (x0 :: X') (y0 :: Y') := by
    conv_lhs => rw [wcetLegacyBody_decomp]
    rw [dropSpace_cons (by decide)]
    rw [← wcetLegacyBody_decomp]
  have hPlain : plainPrefixMatch? (wcetLegacyLine (x0 :: X') (y0 :: Y'))
      = some ("WCET".data, wcetLegacyBody (x0 :: X') (y0 :: Y')) := by
    rw [wcetLegacyLine_decomp]
    rw [show (['W', 'C', 'E', 'T'] ++
          (' ' :: wcetLegacyBody (x0 :: X') (y0 :: Y')))
        = 'W' :: (['C', 'E', 'T'] ++
          ' ' :: wcetLegacyBody (x0 :: X') (y0 :: Y')) from rfl]
    unfold plainPrefixMatch?
    rw [takeWhile_run_cons 'W' ['C', 'E', 'T'] _ (by decide) (by decide)
          (by decide),
        dropWhile_run_cons 'W' ['C', 'E', 'T'] _ (by decide) (by decide)
          (by decide)]
    try dsimp only
    rw [hdws, restDollar?_clean hBodyNoNl]
    rfl
  -- the WCET free-text fallback fires on the body
  have hStripBody : pyStrip (wcetLegacyBody (x0 :: X') (y0 :: Y'))
      = wcetLegacyBody (x0 :: X') (y0 :: Y') := by
    conv_lhs => rw [hshBody]
    rw [pyStrip_cons_concat _ _ _ (by decide) (by decide)]
    rw [← hshBody]
  have hTry : wcetTryAt? (wcetLegacyBody (x0 :: X') (y0 :: Y'))
      = some (x0 :: X', y0 :: Y') := by
    rw [wcetLegacyBody_decomp]
    unfold wcetTryAt?
    simp only [List.cons_append]
    rw [dropSpace_cons (wordChar_not_space hx0w)]
    rw [takeWhile_run_cons x0 X' _ hx0w hX'w (by decide)]
    rw [dropWhile_run_cons x0 X' _ hx0w hX'w (by decide)]
    have hd1 : List.dropWhile pyIsSpace
        (' ' :: 'W' :: 'C' :: 'E' :: 'T' :: ':' :: ' ' :: (y0 :: (Y' ++ [' ', 'u', 's'])))
        = 'W' :: 'C' :: 'E' :: 'T' :: ':' :: ' ' :: (y0 :: (Y' ++ [' ', 'u', 's'])) :=
      dropSpace_cons (by decide)
    have hd2 : List.dropWhile pyIsSpace (' ' :: (y0 :: (Y' ++ [' ', 'u', 's'])))
        = y0 :: (Y' ++ [' ', 'u', 's']) :=
      dropSpace_cons (wordChar_not_space (digitC_isWord hy0d))
    have ht1 : (y0 :: (Y' ++ [' ', 'u', 's'])).takeWhile isDigitC = y0 :: Y' :=
      takeWhile_run_cons y0 Y' _ hy0d hY'd (by decide)
    have hd3 : (y0 :: (Y' ++ [' ', 'u', 's'])).dropWhile isDigitC = [' ', 'u', 's'] :=
      dropWhile_run_cons y0 Y' _ hy0d hY'd (by decide)
    have hd4 : List.dropWhile pyIsSpace [' ', 'u', 's'] = ['u', 's'] := by decide
    simp only [hd1, hd2, ht1, hd3, hd4, List.isEmpty_cons, Bool.false_eq_true,
      if_false]
  have hSearch : wcetSearchF (wcetLegacyBody (x0 :: X') (y0 :: Y')).length
      (wcetLegacyBody (x0 :: X') (y0 :: Y')) = some (x0 :: X', y0 :: Y') := by
    conv_lhs => rw [wcetLegacyBody_decomp]
    rw [List.length_cons]
    simp only [wcetSearchF]
    rw [← wcetLegacyBody_decomp, hTry]
  have hWith : parseWithPfx "WCET".data (wcetLegacyBody (x0 :: X') (y0 :: Y'))
      = (some "WCET".data,
         [("name".data, "wcet".data), ("task".data, x0 :: X'),
          ("dur_us".data, y0 :: Y'), ("isr".data, "0".data)]) := by
    unfold parseWithPfx
    rw [kvDict_nil hBodyNoEq, hStripBody, hSearch]
    simp
  unfold parseLine
  dsimp only
  rw [hAnsi, hStrip, hCut, hLog]
  dsimp only
  rw [hCut, hPre]
  dsimp only
  rw [hPlain]
  dsimp only
  rw [if_pos (by decide)]
  exact hWith

/-- C3 counterexample: the bracketed shape `[WCET] Task: T1, WCET: 42 us`
is NOT parsed as a WCET event — `_LOG_LEVEL_PREFIX_RE` treats `[WCET]`
(3–5 capital letters in brackets) as a logger-level tag and strips it, and
the remaining `Task: ...` text has no recognized category, so `parseLine`
returns `(None, {})`, refuting the bracketed half of the claim. -/
theorem claim_c3_wcet_legacy_counterexample :
    parseLine "[WCET] Task: T1, WCET: 42 us".data = (none, [])
    ∧ parseLine "WCET Task: T1, WCET: 42 us".data
      = (some "WCET".data,
         [("name".data, "wcet".data), ("task".data, "T1".data),
          ("dur_us".data, "42".data), ("isr".data, "0".data)]) := by
  constructor
  · decide
  · decide

/-- C3 amended, witness: the bare shape at `X = T1`, `Y = 42`. -/
theorem claim_c3_wcet_legacy_witness :
    parseLine (wcetLegacyLine "T1".data "42".data)
      = (some "WCET".data,
         [("name".data, "wcet".data), ("task".data, "T1".data),
          ("dur_us".data, "42".data), ("isr".data, "0".data)]) :=
  claim_c3_wcet_legacy "T1".data "42".data (by decide) (by decide)
    (by decide) (by decide)


/-! ## ELF analysis invariant lemmas (C6) -/

theorem nodup_append_one {α : Type} {l : List α} {a : α} (h : l.Nodup)
    (ha : a ∉ l) : (l ++ [a]).Nodup := by
  refine List.Nodup.append h (List.nodup_singleton a) ?_
  intro b hb hbm
  rw [List.mem_singleton] at hbm
  subst hbm
  exact ha hb

theorem modifyA_split {α β : Type} [DecidableEq α] (d : β) (f : β → β) :
    ∀ (l : List (α × β)) (k : α) (v : β), lookupA l k = some v →
      ∃ l₁ l₂, (∀ p ∈ l₁, p.1 ≠ k) ∧ l = l₁ ++ (k, v) :: l₂ ∧
        modifyA d f l k = l₁ ++ (k, f v) :: l₂ := by
  intro l
  induction l with
  | nil =>
      intro k v h
      simp [lookupA] at h
  | cons a t ih =>
      intro k v h
      obtain ⟨ka, va⟩ := a
      by_cases hk : ka = k
      · subst hk
        simp only [lookupA, if_pos rfl] at h
        injection h with hv
        subst hv
        refine ⟨[], t, by simp, by simp, ?_⟩
        simp [modifyA]
      · simp only [lookupA, if_neg hk] at h
        obtain ⟨l₁, l₂, hne, hdec, hmod⟩ := ih k v h
        refine ⟨(ka, va) :: l₁, l₂, ?_, ?_, ?_⟩
        · intro p hp
          rcases List.mem_cons.mp hp with h1 | h1
          · rw [h1]
            exact hk
          · exact hne p h1
        · rw [List.cons_append, ← hdec]
        · simp only [modifyA, if_neg hk, hmod, List.cons_append]

theorem lookupA_skip {α β : Type} [DecidableEq α] (l₁ rest : List (α × β))
    (k : α) (h : ∀ p ∈ l₁, p.1 ≠ k) :
    lookupA (l₁ ++ rest) k = lookupA rest k := by
  induction l₁ with
  | nil => rfl
  | cons a t ih =>
      obtain ⟨ka, va⟩ := a
      have hka : ka ≠ k := h (ka, va) (List.mem_cons_self _ _)
      rw [List.cons_append]
      simp only [lookupA, if_neg hka]
      exact ih (fun p hp => h p (List.mem_cons_of_mem _ hp))

theorem lookupA_modifyA_self {α β : Type} [DecidableEq α] (d : β) (f : β → β)
    {l : List (α × β)} {k : α} {v : β} (h : lookupA l k = some v) :
    lookupA (modifyA d f l k) k = some (f v) := by
  obtain ⟨l₁, l₂, hne, hdec, hmod⟩ := modifyA_split d f l k v h
  rw [hmod, lookupA_skip _ _ _ hne]
  simp [lookupA]

theorem lookupA_some_mem {α β : Type} [DecidableEq α] :
    ∀ {l : List (α × β)} {k : α} {v : β}, lookupA l k = some v → (k, v) ∈ l := by
  intro l
  induction l with
  | nil =>
      intro k v h
      simp [lookupA] at h
  | cons a t ih =>
      intro k v h
      obtain ⟨ka, va⟩ := a
      by_cases hk : ka = k
      · subst hk
        simp only [lookupA, if_pos rfl] at h
        injection h with hv
        subst hv
        exact List.mem_cons_self _ _
      · simp only [lookupA, if_neg hk] at h
        exact List.mem_cons_of_mem _ (ih h)

theorem count_one_of_nodup_mem {α : Type} [BEq α] [LawfulBEq α] {l : List α}
    {a : α} (hn : l.Nodup) (ha : a ∈ l) : l.count a = 1 := by
  induction l with
  | nil => cases ha
  | cons b t ih =>
      rw [List.nodup_cons] at hn
      rw [List.count_cons]
      rcases List.mem_cons.mp ha with h1 | h1
      · subst h1
        have h0 : t.count a = 0 := List.count_eq_zero.mpr hn.1
        rw [h0]
        simp
      · have hne : (b == a) = false := by
          refine beq_eq_false_iff_ne.mpr ?_
          intro he
          subst he
          exact hn.1 h1
        rw [ih hn.2 h1, hne]
        simp

theorem scanStep_inv (maxF : Nat) (st : ElfScanState) (ln : List Char)
    (h : elfScanInv st) : elfScanInv (scanStep maxF st ln).1 := by
  obtain ⟨hnd, hcal⟩ := h
  unfold scanStep
  cases hf : funcLineMatch? ln with
  | some pr =>
      obtain ⟨addr, name⟩ := pr
      dsimp only
      split
      · exact ⟨hnd, hcal⟩
      · split
        · exact ⟨hnd, hcal⟩
        · refine ⟨hnd, ?_⟩
          intro p hp
          rcases List.mem_append.mp hp with h1 | h1
          · exact hcal p h1
          · rw [List.mem_singleton] at h1
            rw [h1]
  | none =>
      cases hcf : st.currentFunc with
      | none => exact ⟨hnd, hcal⟩
      | some cf =>
          cases hi : insLineMatch? ln with
          | none => exact ⟨hnd, hcal⟩
          | some mnRaw =>
              dsimp only
              split
              · have h1 : ∀ p ∈ modifyA ({ name := cf } : FunctionInfo)
                    (fun fi =>
                      { fi with instructionCount := fi.instructionCount + 1,
                                estimatedCycles := fi.estimatedCycles +
                                  getInstructionCycles (normalizeMnemonic mnRaw),
                                decisionCount := fi.decisionCount +
                                  (if normalizeMnemonic mnRaw ∈ decisionMnemonics
                                   then 1 else 0) })
                    st.functions cf, p.2.callers = ([] : List (List Char)) :=
                  modifyA_forall
                    (fun b : FunctionInfo => b.callers = ([] : List (List Char)))
                    _ _ _ _ rfl (fun v hv => hv) hcal
                cases hc : callSearchF ln.length none ln with
                | none => exact ⟨hnd, h1⟩
                | some callee =>
                    dsimp only
                    have h2 := modifyA_forall
                      (fun b : FunctionInfo => b.callers = ([] : List (List Char)))
                      ({ name := cf } : FunctionInfo)
                      (fun fi => if callee ∈ fi.callees then fi
                                 else { fi with callees := fi.callees ++ [callee] })
                      _ cf (by dsimp only; split <;> rfl)
                      (fun v hv => by dsimp only; split <;> exact hv) h1
                    split
                    · exact ⟨hnd, h2⟩
                    · rename_i hni
                      exact ⟨nodup_append_one hnd hni, h2⟩
              · exact ⟨hnd, hcal⟩

theorem scanLines_inv (maxF : Nat) :
    ∀ (lines : List (List Char)) (st : ElfScanState), elfScanInv st →
      elfScanInv (scanLines maxF lines st) := by
  intro lines
  induction lines with
  | nil =>
      intro st h
      exact h
  | cons ln rest ih =>
      intro st h
      have hstep := scanStep_inv maxF st ln h
      rw [scanLines]
      cases hs : scanStep maxF st ln with
      | mk st1 brk =>
          rw [hs] at hstep
          cases brk
          · exact ih st1 hstep
          · exact hstep

theorem finalizeFunctions_mem {clk : Nat} {fns : List (List Char × FunctionInfo)}
    {p : List Char × FunctionInfo} (hp : p ∈ finalizeFunctions clk fns) :
    ∃ q, q ∈ fns ∧ p.1 = q.1 ∧ p.2.mccabe = 1 + p.2.decisionCount ∧
      p.2.callers = q.2.callers := by
  unfold finalizeFunctions at hp
  rw [List.mem_map] at hp
  obtain ⟨q, hq, heq⟩ := hp
  subst heq
  refine ⟨q, hq, rfl, ?_, ?_⟩
  · dsimp only
    split <;> rfl
  · dsimp only
    split <;> rfl

theorem addCallersStep_entryOk {E0 : List (List Char × List Char)}
    {fns : List (List Char × FunctionInfo)} {e : List Char × List Char}
    (he : e ∈ E0) (h : ∀ p ∈ fns, entryOkE E0 p) :
    ∀ p ∈ addCallersStep fns e, entryOkE E0 p := by
  unfold addCallersStep
  cases hl : lookupA fns e.2 with
  | none => exact h
  | some fi =>
      dsimp only
      split
      · exact h
      · rename_i hni
        obtain ⟨l₁, l₂, hne, hdec, hmod⟩ :=
          modifyA_split ({ name := e.2 } : FunctionInfo)
            (fun g => { g with callers := g.callers ++ [e.1] }) fns e.2 fi hl
        rw [hmod]
        intro p hp
        rcases List.mem_append.mp hp with h1 | h1
        · exact h p (by rw [hdec]; exact List.mem_append_left _ h1)
        · rcases List.mem_cons.mp h1 with h2 | h2
          · rw [h2]
            have hfi : entryOkE E0 (e.2, fi) := h (e.2, fi) (by rw [hdec]; simp)
            unfold entryOkE at hfi ⊢
            refine ⟨hfi.1, nodup_append_one hfi.2.1 hni, ?_⟩
            intro c hc
            rcases List.mem_append.mp hc with h3 | h3
            · exact hfi.2.2 c h3
            · rw [List.mem_singleton] at h3
              rw [h3]
              exact he
          · exact h p
              (by rw [hdec]; exact List.mem_append_right _ (List.mem_cons_of_mem _ h2))

theorem addCallers_entryOk {E0 : List (List Char × List Char)} :
    ∀ (E : List (List Char × List Char)) (fns : List (List Char × FunctionInfo)),
      (∀ x ∈ E, x ∈ E0) → (∀ p ∈ fns, entryOkE E0 p) →
      ∀ p ∈ addCallers E fns, entryOkE E0 p := by
  intro E
  induction E with
  | nil =>
      intro fns _ h
      exact h
  | cons e rest ih =>
      intro fns hE h
      simp only [addCallers]
      exact ih _ (fun x hx => hE x (List.mem_cons_of_mem _ hx))
        (addCallersStep_entryOk (hE e (List.mem_cons_self _ _)) h)

theorem addCallersStep_mono {k c : List Char}
    {fns : List (List Char × FunctionInfo)} {e : List Char × List Char}
    (h : ∀ fi, lookupA fns k = some fi → c ∈ fi.callers) :
    ∀ fi, lookupA (addCallersStep fns e) k = some fi → c ∈ fi.callers := by
  unfold addCallersStep
  cases hl : lookupA fns e.2 with
  | none => exact h
  | some v =>
      dsimp only
      split
      · exact h
      · by_cases hk : k = e.2
        · subst hk
          rw [lookupA_modifyA_self _ _ hl]
          intro fi hfi
          injection hfi with hv
          rw [← hv]
          exact List.mem_append_left _ (h v hl)
        · rw [lookupA_modifyA_ne _ _ _ _ _ hk]
          exact h

theorem addCallersStep_own {fns : List (List Char × FunctionInfo)}
    {e : List Char × List Char} :
    ∀ fi, lookupA (addCallersStep fns e) e.2 = some fi → e.1 ∈ fi.callers := by
  unfold addCallersStep
  cases hl : lookupA fns e.2 with
  | none =>
      intro fi hfi
      rw [hl] at hfi
      cases hfi
  | some v =>
      dsimp only
      split
      · rename_i hmem
        intro fi hfi
        rw [hl] at hfi
        injection hfi with hv
        rw [← hv]
        exact hmem
      · rw [lookupA_modifyA_self _ _ hl]
        intro fi hfi
        injection hfi with hv
        rw [← hv]
        exact List.mem_append_right _ (List.mem_singleton.mpr rfl)

theorem addCallers_mono {k c : List Char} :
    ∀ (E : List (List Char × List Char)) (fns : List (List Char × FunctionInfo)),
      (∀ fi, lookupA fns k = some fi → c ∈ fi.callers) →
      ∀ fi, lookupA (addCallers E fns) k = some fi → c ∈ fi.callers := by
  intro E
  induction E with
  | nil =>
      intro fns h
      exact h
  | cons e rest ih =>
      intro fns h
      simp only [addCallers]
      exact ih _ (addCallersStep_mono h)

theorem addCallers_complete :
    ∀ (E : List (List Char × List Char)) (fns : List (List Char × FunctionInfo)),
      ∀ e ∈ E, ∀ fi, lookupA (addCallers E fns) e.2 = some fi → e.1 ∈ fi.callers := by
  intro E
  induction E with
  | nil =>
      intro fns e he
      cases he
  | cons x rest ih =>
      intro fns e he
      rcases List.mem_cons.mp he with h1 | h1
      · rw [h1]
        simp only [addCallers]
        exact addCallers_mono (k := x.2) (c := x.1) rest (addCallersStep fns x)
          addCallersStep_own
      · simp only [addCallers]
        exact ih _ e h1

/-- C6: for every disassembly text analyzed by `_analyzeElfComplete`,
every function's McCabe complexity equals 1 plus its conditional-branch
count, the recorded edge list is duplicate-free, every caller in a
`callers` list corresponds to a recorded edge, and the caller of every
recorded edge appears exactly once in the callee's `callers` list; on the
specification's synthetic disassembly the function with two conditional
branches gets complexity 3, the repeated `bl` yields the single edge
(vMainTask, helper), and `helper` lists `vMainTask` as its only caller. -/
theorem claim_c6_elf_static_analysis :
    (∀ (lines : List (List Char)) (clk maxF : Nat),
      (∀ p ∈ (analyzeElfLines lines clk maxF).functions,
          p.2.mccabe = 1 + p.2.decisionCount ∧ p.2.callers.Nodup ∧
          ∀ c ∈ p.2.callers, (c, p.1) ∈ (analyzeElfLines lines clk maxF).edges) ∧
      (analyzeElfLines lines clk maxF).edges.Nodup ∧
      (∀ e ∈ (analyzeElfLines lines clk maxF).edges, ∀ fi,
          lookupA (analyzeElfLines lines clk maxF).functions e.2 = some fi →
          fi.callers.count e.1 = 1)) ∧
    ((lookupA (analyzeElfLines elfDemoLines 125000000 3000).functions
        (("vMainTask").data)).map
        (fun fi => (fi.mccabe, fi.decisionCount, fi.callees))
      = some (3, 2, [("helper").data]) ∧
     (analyzeElfLines elfDemoLines 125000000 3000).edges
      = [((("vMainTask").data), (("helper").data))] ∧
     (lookupA (analyzeElfLines elfDemoLines 125000000 3000).functions
        (("helper").data)).map (fun fi => fi.callers)
      = some [("vMainTask").data]) := by
  constructor
  · intro lines clk maxF
    have hfun : (analyzeElfLines lines clk maxF).functions
        = addCallers (scanLines maxF lines {}).edges
            (finalizeFunctions clk (scanLines maxF lines {}).functions) := rfl
    have hedg : (analyzeElfLines lines clk maxF).edges
        = (scanLines maxF lines {}).edges := rfl
    have hinv : elfScanInv (scanLines maxF lines {}) :=
      scanLines_inv maxF lines {}
        ⟨List.nodup_nil, fun p hp => absurd hp (List.not_mem_nil p)⟩
    obtain ⟨hnd, hcal⟩ := hinv
    have hfin : ∀ p ∈ finalizeFunctions clk (scanLines maxF lines {}).functions,
        entryOkE (scanLines maxF lines {}).edges p := by
      intro p hp
      obtain ⟨q, hq, hfst, hmc, hclr⟩ := finalizeFunctions_mem hp
      have hc0 : q.2.callers = [] := hcal q hq
      unfold entryOkE
      refine ⟨hmc, ?_, ?_⟩
      · rw [hclr, hc0]
        exact List.nodup_nil
      · intro c hc
        rw [hclr, hc0] at hc
        exact absurd hc (List.not_mem_nil c)
    have hok := addCallers_entryOk (scanLines maxF lines {}).edges _
      (fun x hx => hx) hfin
    refine ⟨?_, by rw [hedg]; exact hnd, ?_⟩
    · intro p hp
      rw [hfun] at hp
      have := hok p hp
      unfold entryOkE at this
      rw [hedg]
      exact this
    · intro e he fi hfi
      rw [hedg] at he
      rw [hfun] at hfi
      have hmem1 := addCallers_complete _ _ e he fi hfi
      have hok2 := hok _ (lookupA_some_mem hfi)
      unfold entryOkE at hok2
      exact count_one_of_nodup_mem hok2.2.1 hmem1
  · refine ⟨?_, ?_, ?_⟩ <;> with_unfolding_all decide

/-- Closed instance of the C6 theorem on the synthetic disassembly: the
callee `helper` records its caller `vMainTask` exactly once. -/
theorem claim_c6_elf_static_analysis_witness :
    ((lookupA (analyzeElfLines elfDemoLines 125000000 3000).functions
        (("helper").data)).map
        (fun fi => fi.callers.count (("vMainTask").data))) = some 1 := by
  cases hl : lookupA (analyzeElfLines elfDemoLines 125000000 3000).functions
      (("helper").data) with
  | none =>
      have hs : (lookupA (analyzeElfLines elfDemoLines 125000000 3000).functions
          (("helper").data)).isSome = true := by with_unfolding_all decide
      rw [hl] at hs
      cases hs
  | some fi =>
      have h := (claim_c6_elf_static_analysis.1 elfDemoLines 125000000 3000).2.2
        ((("vMainTask").data), (("helper").data)) (by decide) fi hl
      exact congrArg some h

/-! ## Callgraph-depth lemmas (C7) -/

theorem countNotIn_push_le (x : List Char) (s : List (List Char)) :
    ∀ keys : List (List Char), countNotIn keys (x :: s) ≤ countNotIn keys s := by
  intro keys
  induction keys with
  | nil => exact Nat.le_refl 0
  | cons a t ih =>
      simp only [countNotIn]
      by_cases ha : a ∈ s
      · have ha2 : a ∈ x :: s := List.mem_cons_of_mem _ ha
        rw [if_pos ha, if_pos ha2]
        omega
      · rw [if_neg ha]
        by_cases ha2 : a ∈ x :: s
        · rw [if_pos ha2]
          omega
        · rw [if_neg ha2]
          omega

theorem freeKeyCount_push_lt {fns : List (List Char × FunctionInfo)}
    {inStack : List (List Char)} {name : List Char}
    (hmem : name ∈ fns.map Prod.fst) (hnot : name ∉ inStack) :
    freeKeyCount fns (name :: inStack) < freeKeyCount fns inStack := by
  unfold freeKeyCount
  revert hmem
  generalize fns.map Prod.fst = keys
  intro hmem
  induction keys with
  | nil => cases hmem
  | cons a t ih =>
      simp only [countNotIn]
      by_cases ha : a = name
      · rw [ha]
        rw [if_pos (List.mem_cons_self _ _), if_neg hnot]
        have := countNotIn_push_le name inStack t
        omega
      · have hm2 : name ∈ t := by
          rcases List.mem_cons.mp hmem with h1 | h1
          · exact absurd h1.symm ha
          · exact h1
        have hlt := ih hm2
        by_cases hin : a ∈ inStack
        · rw [if_pos hin, if_pos (List.mem_cons_of_mem _ hin)]
          omega
        · have hin2 : a ∉ name :: inStack := by
            intro hc
            rcases List.mem_cons.mp hc with h1 | h1
            · exact ha h1
            · exact hin h1
          rw [if_neg hin, if_neg hin2]
          omega

theorem countNotIn_nil_eq :
    ∀ keys : List (List Char), countNotIn keys [] = keys.length := by
  intro keys
  induction keys with
  | nil => rfl
  | cons a t ih =>
      simp only [countNotIn, List.not_mem_nil, if_false, ih, List.length_cons]
      omega

theorem foldl_dfsAcc_isSome
    (g : List Char → List (List Char × Nat) → Option (Nat × List (List Char × Nat)))
    (hg : ∀ c vis, (g c vis).isSome = true) :
    ∀ (cs : List (List Char)) (mx : Nat) (vis : List (List Char × Nat)),
      (cs.foldl (dfsAcc g) (some (mx, vis))).isSome = true := by
  intro cs
  induction cs with
  | nil =>
      intro mx vis
      rfl
  | cons c rest ih =>
      intro mx vis
      rw [List.foldl_cons]
      have hc := hg c vis
      cases hgc : g c vis with
      | none =>
          rw [hgc] at hc
          cases hc
      | some p =>
          obtain ⟨d, vis2⟩ := p
          have hstep : dfsAcc g (some (mx, vis)) c = some (max mx d, vis2) := by
            simp [dfsAcc, hgc]
          rw [hstep]
          exact ih _ _

theorem dfsDepthF_isSome :
    ∀ (fuel : Nat) (fns : List (List Char × FunctionInfo)) (name : List Char)
      (visited : List (List Char × Nat)) (inStack : List (List Char)),
      freeKeyCount fns inStack < fuel →
      (dfsDepthF fuel fns name visited inStack).isSome = true := by
  intro fuel
  induction fuel with
  | zero =>
      intro fns name visited inStack h
      exact absurd h (Nat.not_lt_zero _)
  | succ n ih =>
      intro fns name visited inStack h
      rw [dfsDepthF]
      cases hv : lookupA visited name with
      | some d => rfl
      | none =>
          dsimp only
          by_cases hin : name ∈ inStack
          · rw [if_pos hin]
            rfl
          · rw [if_neg hin]
            cases hfn : lookupA fns name with
            | none => rfl
            | some fi =>
                dsimp only
                have hg : ∀ (c : List Char) (vis : List (List Char × Nat)),
                    (dfsDepthF n fns c vis (name :: inStack)).isSome = true := by
                  intro c vis
                  apply ih
                  have hkey : name ∈ fns.map Prod.fst :=
                    List.mem_map.mpr ⟨(name, fi), lookupA_some_mem hfn, rfl⟩
                  have hlt := freeKeyCount_push_lt hkey hin
                  omega
                have hfold := foldl_dfsAcc_isSome _ hg fi.callees 0 visited
                cases hres : fi.callees.foldl
                    (dfsAcc (fun c vis => dfsDepthF n fns c vis (name :: inStack)))
                    (some (0, visited)) with
                | none =>
                    rw [hres] at hfold
                    cases hfold
                | some p =>
                    obtain ⟨mx, vis⟩ := p
                    rfl

/-- C7: the fuelled embedding of the `dfs` of `_calculateCallgraphDepth`
always succeeds with fuel `|functions| + 1` — the in-recursion-stack guard
bounds the live stack by the number of distinct function keys, so the
search terminates on every table, cycles included; a node revisited while
on the stack yields depth 0 without recursing; and on a function whose
callee list contains itself the computed maximal depth is the finite
value 1. -/
theorem claim_c7_callgraph_depth :
    (∀ (fns : List (List Char × FunctionInfo)) (name : List Char)
        (visited : List (List Char × Nat)),
        (dfsDepthF (fns.length + 1) fns name visited []).isSome = true) ∧
    (∀ (fuel : Nat) (fns : List (List Char × FunctionInfo)) (name : List Char)
        (visited : List (List Char × Nat)) (inStack : List (List Char)),
        lookupA visited name = none → name ∈ inStack →
        dfsDepthF (fuel + 1) fns name visited inStack = some (0, visited)) ∧
    calculateCallgraphDepth selfRecFns = 1 := by
  refine ⟨?_, ?_, ?_⟩
  · intro fns name visited
    apply dfsDepthF_isSome
    have h1 : freeKeyCount fns [] = fns.length := by
      unfold freeKeyCount
      rw [countNotIn_nil_eq, List.length_map]
    omega
  · intro fuel fns name visited inStack h1 h2
    rw [dfsDepthF, h1]
    dsimp only
    rw [if_pos h2]
  · decide

/-- Closed instance of the C7 theorem at the self-recursive one-function
table: the search succeeds at fuel 2 from an empty stack, and returns
depth 0 at once when the function is already on the stack. -/
theorem claim_c7_callgraph_depth_witness :
    (dfsDepthF (selfRecFns.length + 1) selfRecFns (("f").data) [] []).isSome
      = true ∧
    dfsDepthF 1 selfRecFns (("f").data) [] [("f").data] = some (0, []) :=
  ⟨claim_c7_callgraph_depth.1 selfRecFns (("f").data) [],
   claim_c7_callgraph_depth.2.1 0 selfRecFns (("f").data) [] [("f").data]
     rfl (by decide)⟩

end WcetReport
